import Mathlib

/-!
Verification of the Usnea dialog-graph core (google-research/usnea).

A shallow embedding of the TypeScript sources:
  * `src/common/interfaces.ts`   — the data model,
  * `src/common/utils.ts`        — graph queries and the DAG layout,
  * `src/services/inference/semantic_inference_service.ts` — rule evaluation,
  * `src/services/persistence/graph_serialization.ts`      — wire format.

JS numbers are modelled as `Rat` (scores, thresholds, fail counts,
coordinates); attempt counters, which the code only ever sets to `0` or
increments, as `Nat`.  JS `Map`s are insertion-ordered association lists,
JS `Set`s insertion-ordered duplicate-free lists.  A thrown exception is
an `Option.none` result.
-/

namespace Usnea

/-- A JS `Map<string, α>`: an insertion-ordered association list with at
most one binding per key (the operations below preserve that shape). -/
abbrev JsMap (α : Type) : Type := List (String × α)

/-- `Map.get`: value at the first binding of the key, `undefined` when absent. -/
def JsMap.get {α : Type} : JsMap α → String → Option α
  | [], _ => none
  | (k, v) :: rest, key => if k = key then some v else JsMap.get rest key

/-- `Map.has`. -/
def JsMap.hasKey {α : Type} (m : JsMap α) (key : String) : Bool :=
  (m.get key).isSome

/-- `Map.set`: overwrite in place at an existing key (keeping its position
in iteration order), otherwise append a fresh binding. -/
def JsMap.set {α : Type} : JsMap α → String → α → JsMap α
  | [], key, val => [(key, val)]
  | (k, v) :: rest, key, val =>
      if k = key then (k, val) :: rest else (k, v) :: JsMap.set rest key val

/-- `Map.delete`. -/
def JsMap.del {α : Type} : JsMap α → String → JsMap α
  | [], _ => []
  | (k, v) :: rest, key =>
      if k = key then JsMap.del rest key else (k, v) :: JsMap.del rest key

/-- The world state: `Map<string, string>` (interfaces.ts / README). -/
abbrev World : Type := JsMap String

/-! ## The data model (`src/common/interfaces.ts`) -/

/-- `Node`.  `fx`/`fy` are the optional layout coordinates (`number|null`;
the `null` state is only ever produced by the rendering layer at runtime,
so an absent value stands for both `undefined` and `null`). -/
structure Node where
  id : String
  title : String
  prompt : String
  retryPrompt : String
  autoAdvance : Option Bool
  fx : Option Rat
  fy : Option Rat
deriving DecidableEq, Repr

/-- `MutationType`. -/
inductive MutationType where
  | add
  | remove
deriving DecidableEq, Repr

/-- `ConditionType`. -/
inductive ConditionType where
  | require
  | forbid
deriving DecidableEq, Repr

/-- `Condition`. -/
structure Condition where
  conditionType : ConditionType
  key : String
  value : String
deriving DecidableEq, Repr

/-- `Mutation`. -/
structure Mutation where
  mutationType : MutationType
  key : String
  value : String
deriving DecidableEq, Repr

/-- `MatchCandidate`.  `antiExample?: boolean` is only ever read through
boolean coercion (`!candidate.antiExample`), under which an absent field
and `false` coincide, so it is modelled as a plain `Bool`. -/
structure MatchCandidate where
  text : String
  antiExample : Bool
deriving DecidableEq, Repr

/-- `SemanticMatchRule`. -/
structure SemanticMatchRule where
  matchCandidates : List MatchCandidate
deriving DecidableEq, Repr

/-- `RepeatedFailRule`. -/
structure RepeatedFailRule where
  failMessage : Option String
  failCount : Rat
deriving DecidableEq, Repr

/-- `EdgeRule`: the `{type, data}` tagged union. -/
inductive EdgeRule where
  | semanticMatch (data : SemanticMatchRule)
  | repeatedFail (data : RepeatedFailRule)
deriving DecidableEq, Repr

/-- `Edge`.  The `layout` field (`EdgeLayout`) is transient rendering
state never read by the traversal, layout or serialization code modelled
here, and is omitted. -/
structure Edge where
  source : Node
  target : Node
  rules : List EdgeRule
  conditions : Option (List Condition)
  mutations : Option (List Mutation)
deriving DecidableEq, Repr

/-- `Graph`. -/
structure Graph where
  id : String
  contentId : Option String
  name : String
  start : String
  nodes : List Node
  edges : List Edge
deriving DecidableEq, Repr

/-! ## Graph query utilities (`src/common/utils.ts`) -/

/-- The loop body of `isRepeatedFail`: accumulator is `hasRepeatedFail`. -/
def isRepeatedFailAux : List EdgeRule → Bool → Bool
  | [], acc => acc
  | .repeatedFail _ :: rest, _ => isRepeatedFailAux rest true
  | .semanticMatch _ :: _, _ => false

/-- `isRepeatedFail`: true iff the edge has only repeated-fail rules
(and at least one rule). -/
def isRepeatedFail (edge : Edge) : Bool :=
  isRepeatedFailAux edge.rules false

/-- First loop of `getEdgeName`: the first `SEMANTIC_MATCH` rule's data. -/
def firstSemanticMatchRuleData : List EdgeRule → Option SemanticMatchRule
  | [] => none
  | .semanticMatch d :: _ => some d
  | .repeatedFail _ :: rest => firstSemanticMatchRuleData rest

/-- Second loop of `getEdgeName`: text of the first non-anti-example. -/
def firstPositiveExample : List MatchCandidate → Option String
  | [] => none
  | c :: rest => if c.antiExample then firstPositiveExample rest else some c.text

/-- `getEdgeName`.  The source returns `firstPositiveExample || ''`: a
missing first positive example — and, by string falsiness, an empty one —
becomes `''`; `null` is returned only when no semantic rule exists. -/
def getEdgeName (edge : Edge) : Option String :=
  match firstSemanticMatchRuleData edge.rules with
  | none => none
  | some r =>
      match firstPositiveExample r.matchCandidates with
      | none => some ""
      | some t => some (if t = "" then "" else t)

/-- One `Condition` check inside `getOutEdges`, phrased as the source
phrases it: the boolean that sets `passedConditions = false`. -/
def conditionFails (world : World) (condition : Condition) : Bool :=
  match condition.conditionType with
  | .require =>
      !world.hasKey condition.key || world.get condition.key != some condition.value
  | .forbid =>
      world.hasKey condition.key || world.get condition.key == some condition.value

/-- The condition loop of `getOutEdges` (breaks on first failure). -/
def passesConditions (world : World) : List Condition → Bool
  | [] => true
  | c :: rest => if conditionFails world c then false else passesConditions world rest

/-- `getOutEdges`.  With no world (or no `conditions` on the edge) every
edge whose source id matches is kept, in stored order. -/
def getOutEdges (node : Node) (graph : Graph) (world : Option World) : List Edge :=
  graph.edges.filter fun edge =>
    edge.source.id == node.id &&
      (match world, edge.conditions with
       | some w, some conds => passesConditions w conds
       | _, _ => true)

/-- `getRepeatedFailEdges`: note the `undefined` world — the outgoing
edges are *not* filtered by conditions here. -/
def getRepeatedFailEdges (node : Node) (graph : Graph) : List Edge :=
  (getOutEdges node graph none).filter isRepeatedFail

/-! ## Inference (`src/services/inference/semantic_inference_service.ts`)

The scorer (`SemanticMatchService`) is the injectable collaborator: its
readiness flag, threshold and similarity function are read at call time.
-/

/-- The pluggable scorer interface (`services/inference/interfaces.ts`,
implemented e.g. by `TFJSSemanticMatchService`). -/
structure SemanticMatchService where
  ready : Bool
  threshold : Rat
  semanticSimilarity : String → List String → List Rat

/-- `ScoredCandidate`. -/
structure ScoredCandidate where
  candidate : MatchCandidate
  score : Rat
  topScore : Bool
deriving DecidableEq, Repr

/-- `SemanticMatchResult`. -/
structure SemanticMatchResult where
  maxScore : Option Rat
  scoredCandidates : List ScoredCandidate
deriving DecidableEq, Repr

/-- `ScoredSemanticMatchRule`. -/
structure ScoredSemanticMatchRule where
  scoredCandidates : List ScoredCandidate
  rule : SemanticMatchRule
  chosen : Bool
deriving DecidableEq, Repr

/-- `InferenceState`.  `attemptNumber` is only ever `0` or an increment of
the previous value, hence `Nat`; `world` is an optional `Map`. -/
structure InferenceState where
  node : Node
  attemptNumber : Nat
  world : Option World
deriving DecidableEq, Repr

/-- `InferenceResult`. -/
structure InferenceResult where
  state : InferenceState
  scoredSemanticMatchRules : List ScoredSemanticMatchRule
  edge : Option Edge := none
  rule : Option EdgeRule := none
deriving DecidableEq, Repr

/-- Running state of the candidate loop in `checkSemanticMatchRule`:
`maxIndex` (JS `-1` sentinel modelled as `none`), `maxScore`,
`maxPositive`, and the `scoredCandidates` accumulator. -/
structure CandidateScanState where
  maxIndex : Option Nat
  maxScore : Rat
  maxPositive : Bool
  scoredCandidates : List ScoredCandidate
deriving DecidableEq, Repr

/-- The candidate loop of `checkSemanticMatchRule`: pushes every
candidate with `topScore := false`, tracking the strict running maximum
(`score > maxScore`, so the first index attaining the maximum is kept). -/
def candidateScan : List (MatchCandidate × Rat) → Nat → CandidateScanState →
    CandidateScanState
  | [], _, st => st
  | (candidate, score) :: rest, i, st =>
      let st := { st with
        scoredCandidates :=
          st.scoredCandidates ++ [⟨candidate, score, false⟩] }
      if score > st.maxScore then
        candidateScan rest (i + 1)
          { st with maxIndex := some i, maxScore := score,
                    maxPositive := !candidate.antiExample }
      else
        candidateScan rest (i + 1) st

/-- `scoredCandidates[maxIndex].topScore = true`. -/
def setTopScoreAt : List ScoredCandidate → Nat → List ScoredCandidate
  | [], _ => []
  | sc :: rest, 0 => { sc with topScore := true } :: rest
  | sc :: rest, i + 1 => sc :: setTopScoreAt rest i

/-- `checkSemanticMatchRule`.  The scorer is called once with the
candidate texts in rule order and, per its documented contract, returns
one score per candidate in the same order (the `zip` below pairs them).
With zero candidates the scorer is not called.  When every score is
`≤ -1` the running `maxIndex` stays at its `-1` sentinel and the source
writes to `scoredCandidates[-1]`, a `TypeError` that aborts the whole
evaluation: modelled as `none`. -/
def checkSemanticMatchRule (svc : SemanticMatchService) (utterance : String)
    (rule : SemanticMatchRule) : Option SemanticMatchResult :=
  if rule.matchCandidates = [] then
    some { maxScore := none, scoredCandidates := [] }
  else
    let candidates := rule.matchCandidates.map (·.text)
    let scores := svc.semanticSimilarity utterance candidates
    let st := candidateScan (rule.matchCandidates.zip scores) 0
      { maxIndex := none, maxScore := -1, maxPositive := false,
        scoredCandidates := [] }
    match st.maxIndex with
    | none => none
    | some i =>
        let sc := setTopScoreAt st.scoredCandidates i
        if st.maxPositive then
          some { maxScore := some st.maxScore, scoredCandidates := sc }
        else
          some { maxScore := none, scoredCandidates := sc }

/-- Running state of the semantic-match loop in `evaluate`. -/
structure BestState where
  bestScore : Rat
  bestEdge : Option Edge
  bestRule : Option EdgeRule
  bestSemanticMatchRuleIndex : Nat
  scored : List ScoredSemanticMatchRule
deriving DecidableEq, Repr

/-- The nested edge/rule loop of `evaluate`, flattened in iteration
order.  `topScore && topScore > threshold && topScore > bestScore` reads,
by JS truthiness, as: the score exists, is nonzero, exceeds the threshold
and exceeds the running best (initially `0.0`).  A `none` from
`checkSemanticMatchRule` aborts the evaluation. -/
def semanticScan (svc : SemanticMatchService) (utterance : String) :
    List (Edge × EdgeRule) → BestState → Option BestState
  | [], st => some st
  | (_, .repeatedFail _) :: rest, st => semanticScan svc utterance rest st
  | (edge, .semanticMatch data) :: rest, st =>
      match checkSemanticMatchRule svc utterance data with
      | none => none
      | some res =>
          let idx := st.scored.length
          let st := { st with
            scored := st.scored ++ [⟨res.scoredCandidates, data, false⟩] }
          match res.maxScore with
          | none => semanticScan svc utterance rest st
          | some topScore =>
              if topScore != 0 && topScore > svc.threshold &&
                  topScore > st.bestScore then
                semanticScan svc utterance rest
                  { st with bestScore := topScore, bestEdge := some edge,
                            bestRule := some (.semanticMatch data),
                            bestSemanticMatchRuleIndex := idx }
              else
                semanticScan svc utterance rest st

/-- `scoredSemanticMatchRules[bestSemanticMatchRuleIndex].chosen = true`. -/
def setChosenAt : List ScoredSemanticMatchRule → Nat →
    List ScoredSemanticMatchRule
  | [], _ => []
  | r :: rest, 0 => { r with chosen := true } :: rest
  | r :: rest, i + 1 => r :: setChosenAt rest i

/-- `applyMutations`: each mutation applied in list order; `ADD` sets,
`REMOVE` deletes (its `value` ignored). -/
def applyMutations (world : World) (edge : Edge) : World :=
  match edge.mutations with
  | none => world
  | some ms =>
      ms.foldl
        (fun w m =>
          match m.mutationType with
          | .add => w.set m.key m.value
          | .remove => w.del m.key)
        world

/-- The repeated-fail loop of `evaluate`, flattened over the edges of
`getRepeatedFailEdges` in iteration order.  The comparison reads the
*already incremented* `result.state.attemptNumber` (and, once a fallback
fires, the reset value `0`); `Number(a >= b)` is truthy exactly when
`a >= b`.  There is no break: a later qualifying rule overwrites the
winner.  Mutations are not touched here. -/
def fallbackScan : List (Edge × EdgeRule) → InferenceResult → InferenceResult
  | [], result => result
  | (_, .semanticMatch _) :: rest, result => fallbackScan rest result
  | (edge, .repeatedFail ruleData) :: rest, result =>
      if (result.state.attemptNumber : Rat) ≥ ruleData.failCount then
        fallbackScan rest
          { result with
            state := { result.state with attemptNumber := 0, node := edge.target },
            edge := some edge,
            rule := some (.repeatedFail ruleData) }
      else
        fallbackScan rest result

/-- `evaluate`.  Throws (`none`) when the scorer is not ready or a
semantic-match check aborts.  Semantic scanning runs over
`getOutEdges(state.node, graph, state.world)`; the fallback scan over
`getRepeatedFailEdges(result.state.node, graph)` — the node unchanged at
that point, and the world deliberately absent.  Mutations of the winning
edge are applied only in the semantic-match branch, and only when the
state carries a world. -/
def evaluate (svc : SemanticMatchService) (graph : Graph) (utterance : String)
    (state : InferenceState) : Option InferenceResult :=
  if !svc.ready then none
  else
    let pairs := (getOutEdges state.node graph state.world).flatMap
      fun e => e.rules.map fun r => (e, r)
    match semanticScan svc utterance pairs ⟨0, none, none, 0, []⟩ with
    | none => none
    | some st =>
        let result : InferenceResult :=
          { state := { attemptNumber := state.attemptNumber + 1,
                       node := state.node, world := state.world },
            scoredSemanticMatchRules := st.scored }
        match st.bestEdge with
        | some bestEdge =>
            let result := { result with
              scoredSemanticMatchRules :=
                setChosenAt st.scored st.bestSemanticMatchRuleIndex,
              state := { result.state with
                attemptNumber := 0, node := bestEdge.target },
              edge := some bestEdge,
              rule := st.bestRule }
            some (match result.state.world with
              | some w =>
                  { result with state :=
                      { result.state with world := some (applyMutations w bestEdge) } }
              | none => result)
        | none =>
            let fallbackPairs :=
              (getRepeatedFailEdges result.state.node graph).flatMap
                fun e => e.rules.map fun r => (e, r)
            some (fallbackScan fallbackPairs result)

/-! ## Serialization (`src/services/persistence/graph_serialization.ts`) -/

/-- `SerializableNodeAnchor`. -/
structure SerializableNodeAnchor where
  x : Rat
  y : Rat
deriving DecidableEq, Repr

/-- `SerializableNode`. -/
structure SerializableNode where
  id : String
  title : String
  prompt : String
  retryPrompt : String
  autoAdvance : Option Bool
  anchor : Option SerializableNodeAnchor
deriving DecidableEq, Repr

/-- `SerializableEdge`: edges reference nodes by array index.  The
indices are JS numbers holding array indices; `Nat` here. -/
structure SerializableEdge where
  sourceIndex : Nat
  targetIndex : Nat
  rules : List EdgeRule
  mutations : List Mutation
  conditions : List Condition
deriving DecidableEq, Repr

/-- `SerializableGraph`. -/
structure SerializableGraph where
  id : String
  contentId : Option String
  name : String
  start : String
  nodes : List SerializableNode
  edges : List SerializableEdge
deriving DecidableEq, Repr

/-- `purifyNode`: drops runtime extras, keeps `autoAdvance` only when
defined, and persists coordinates as an `anchor` only when both `fx`
and `fy` are defined (`Number` of a defined coordinate is itself). -/
def purifyNode (node : Node) : SerializableNode :=
  { id := node.id, title := node.title, prompt := node.prompt,
    retryPrompt := node.retryPrompt,
    autoAdvance := node.autoAdvance,
    anchor :=
      match node.fx, node.fy with
      | some x, some y => some ⟨x, y⟩
      | _, _ => none }

/-- The indexed loop of `findNodeIndex`. -/
def findNodeIndexGo (target : Node) : List Node → Nat → Option Nat
  | [], _ => none
  | n :: rest, i => if n.id = target.id then some i else findNodeIndexGo target rest (i + 1)

/-- `findNodeIndex`: first index whose node has the target's id; the
source throws when there is none (`none` here). -/
def findNodeIndex (nodes : List Node) (target : Node) : Option Nat :=
  findNodeIndexGo target nodes 0

/-- The node loop of `serializableGraphToGraph`. -/
def serializableNodeToNode (e : SerializableNode) : Node :=
  { id := e.id, title := e.title, prompt := e.prompt,
    retryPrompt := e.retryPrompt,
    autoAdvance := e.autoAdvance,
    fx := e.anchor.map (·.x),
    fy := e.anchor.map (·.y) }

/-- `serializableGraphToGraph`.  `contentId` is copied only when truthy
(the empty string is falsy in JS and is dropped).  Each edge resolves its
endpoints by array index; the source builds an edge with `undefined`
endpoints on an out-of-range index (which then throws on first use) — a
typed `Graph` cannot hold such an edge, so the conversion is `none`
there.  The in-source repair of a missing `SEMANTIC_MATCH` `data` (a
Firebase artifact outside the declared interface, where `data` is
required) has no counterpart in this typed model, and `rules`,
`mutations`, `conditions` are required (possibly empty) lists, so the
`x ? x : []` fallbacks are the identity. -/
def serializableGraphToGraph (sg : SerializableGraph) : Option Graph :=
  let nodes := sg.nodes.map serializableNodeToNode
  (go nodes sg.edges).map fun edges =>
    { id := sg.id,
      contentId := sg.contentId.bind fun c => if c = "" then none else some c,
      name := sg.name, start := sg.start,
      nodes := nodes, edges := edges }
where
  go (nodes : List Node) : List SerializableEdge → Option (List Edge)
    | [] => some []
    | e :: rest =>
        match nodes[e.sourceIndex]?, nodes[e.targetIndex]? with
        | some src, some tgt =>
            (go nodes rest).map fun edges =>
              { source := src, target := tgt, rules := e.rules,
                mutations := some e.mutations,
                conditions := some e.conditions } :: edges
        | _, _ => none

/-- `graphToSerializableGraph`.  `contentId` again copied only when
truthy; `mutations`/`conditions` default to `[]` when absent; endpoint
indices recovered by `findNodeIndex` (a missing id throws — `none`). -/
def graphToSerializableGraph (graph : Graph) : Option SerializableGraph :=
  let nodes := graph.nodes.map purifyNode
  (go graph graph.edges).map fun edges =>
    { id := graph.id,
      contentId := graph.contentId.bind fun c => if c = "" then none else some c,
      name := graph.name, start := graph.start,
      nodes := nodes, edges := edges }
where
  go (graph : Graph) : List Edge → Option (List SerializableEdge)
    | [] => some []
    | e :: rest =>
        match findNodeIndex graph.nodes e.source,
              findNodeIndex graph.nodes e.target with
        | some si, some ti =>
            (go graph rest).map fun edges =>
              { sourceIndex := si, targetIndex := ti, rules := e.rules,
                mutations := e.mutations.getD [],
                conditions := e.conditions.getD [] } :: edges
        | _, _ => none

/-! ## DAG layout (`dagLayout` in `src/common/utils.ts`) -/

/-- A queue entry of the layout traversal (`NodeDepth`). -/
structure NodeDepth where
  node : Node
  depth : Nat
deriving DecidableEq, Repr

/-- The mutable state of the layout traversal: tracked in-degrees, the
set of finished node ids (a JS `Set`: insertion-ordered, duplicate-free),
the node-id → depth map (a JS `Map`: a key keeps its first-insertion
position when overwritten), and the running maximum depth. -/
structure DagState where
  inDegree : JsMap Nat
  finished : List String
  depthMap : JsMap Nat
  maxDepth : Nat
deriving DecidableEq, Repr

/-- `Set.add`. -/
def setAdd (s : List String) (x : String) : List String :=
  if x ∈ s then s else s ++ [x]

/-- The in-degree seeding loop of `dagLayout`: start gets a virtual
in-degree of 1, then every edge adds one to its target. -/
def initialInDegree (startNode : Node) (graph : Graph) : JsMap Nat :=
  graph.edges.foldl
    (fun m e =>
      match m.get e.target.id with
      | some k => m.set e.target.id (k + 1)
      | none => m.set e.target.id 1)
    (JsMap.set [] startNode.id 1)

/-- One pop of the layout queue: finish the node (and enqueue the targets
of its unconditioned out-edges one level deeper) when its tracked
in-degree is exactly 1, otherwise decrement; in both cases record the
popped depth and refresh the maximum.  Every enqueued node was seeded
with an in-degree (the start node and all edge targets are), so the
lookup cannot miss; a missing entry is mapped to `none` anyway. -/
def dagStep (graph : Graph) (cur : NodeDepth) (queue : List NodeDepth)
    (st : DagState) : Option (List NodeDepth × DagState) :=
  match st.inDegree.get cur.node.id with
  | none => none
  | some remainingInDegree =>
      let (queue, st) :=
        if remainingInDegree = 1 then
          let st := { st with finished := setAdd st.finished cur.node.id }
          let outEdges := getOutEdges cur.node graph none
          (queue ++ outEdges.map fun e => ⟨e.target, cur.depth + 1⟩, st)
        else
          (queue,
           { st with inDegree := st.inDegree.set cur.node.id (remainingInDegree - 1) })
      some (queue,
        { st with depthMap := st.depthMap.set cur.node.id cur.depth,
                  maxDepth := max st.maxDepth cur.depth })

/-- The traversal loop of `dagLayout`, with explicit fuel.  Every node is
popped at most as many times as its seeded in-degree (each pop either
consumes a decrement or finishes the node for good), so the total number
of pops is at most `1 + |edges|`; `dagRun` is always called with more
fuel than that and the fuel case is unreachable. -/
def dagRun (graph : Graph) : Nat → List NodeDepth → DagState → Option DagState
  | 0, queue, st => if queue = [] then some st else none
  | _ + 1, [], st => some st
  | fuel + 1, cur :: rest, st =>
      match dagStep graph cur rest st with
      | none => none
      | some (queue, st) => dagRun graph fuel queue st

/-- The map inversion at the end of `dagLayout`: one inner list per depth
`0..maxDepth`, each holding the ids at that depth in `depthMap` insertion
order. -/
def invertDepthMap (depthMap : JsMap Nat) (maxDepth : Nat) : List (List String) :=
  (List.range (maxDepth + 1)).map fun d =>
    (depthMap.filter fun item => item.2 = d).map (·.1)

/-- `dagLayout`.  Looks up the start node (the source crashes when the
start id names no node — `none` here, though every claim below supplies
one), runs the traversal from `(start, 0)`, returns the cycle sentinel
`null` when the finished count differs from the node count, and otherwise
the inverted depth map. -/
def dagLayout (graph : Graph) : Option (List (List String)) :=
  match graph.nodes.filter fun n => n.id == graph.start with
  | [] => none
  | startNode :: _ =>
      let st : DagState :=
        { inDegree := initialInDegree startNode graph,
          finished := [], depthMap := [], maxDepth := 0 }
      match dagRun graph (graph.edges.length + 2) [⟨startNode, 0⟩] st with
      | none => none
      | some st =>
          if st.finished.length ≠ graph.nodes.length then none
          else some (invertDepthMap st.depthMap st.maxDepth)

/-! ## Concrete fixtures used by counterexamples and witnesses -/

/-- A minimal node with the given id. -/
def fxNode (i : String) : Node := ⟨i, "t", "p", "r", none, none, none⟩

/-- An edge n1→n2 guarded by `Forbid(k, v)`. -/
def fxForbidEdge : Edge :=
  ⟨fxNode "n1", fxNode "n2", [.repeatedFail ⟨none, 0⟩],
   some [⟨.forbid, "k", "v"⟩], none⟩

/-- Two-node graph holding `fxForbidEdge`. -/
def fxForbidGraph : Graph :=
  ⟨"g", none, "gn", "n1", [fxNode "n1", fxNode "n2"], [fxForbidEdge]⟩

/-- A ready scorer that is never consulted (no semantic rules around). -/
def fxSvcEmpty : SemanticMatchService := ⟨true, 3 / 4, fun _ _ => []⟩

/-- An edge n1→n2 with a single `RepeatedFail(failCount = 3)` rule. -/
def fxRfEdge : Edge := ⟨fxNode "n1", fxNode "n2", [.repeatedFail ⟨none, 3⟩], none, none⟩

/-- Two-node graph holding `fxRfEdge`. -/
def fxRfGraph : Graph :=
  ⟨"g", none, "gn", "n1", [fxNode "n1", fxNode "n2"], [fxRfEdge]⟩

/-- A `RepeatedFail(failCount = 0)` edge carrying a mutation `Add(x, 1)`. -/
def fxMutEdge : Edge :=
  ⟨fxNode "n1", fxNode "n2", [.repeatedFail ⟨none, 0⟩], none,
   some [⟨.add, "x", "1"⟩]⟩

/-- Two-node graph holding `fxMutEdge`. -/
def fxMutGraph : Graph :=
  ⟨"g", none, "gn", "n1", [fxNode "n1", fxNode "n2"], [fxMutEdge]⟩

/-- A `RepeatedFail(failCount = 0)` edge guarded by `Require(k, v)`. -/
def fxCondRfEdge : Edge :=
  ⟨fxNode "n1", fxNode "n2", [.repeatedFail ⟨none, 0⟩],
   some [⟨.require, "k", "v"⟩], none⟩

/-- Two-node graph holding `fxCondRfEdge`. -/
def fxCondRfGraph : Graph :=
  ⟨"g", none, "gn", "n1", [fxNode "n1", fxNode "n2"], [fxCondRfEdge]⟩

/-- An edge with one semantic rule with one positive candidate. -/
def fxSmEdge : Edge :=
  ⟨fxNode "n1", fxNode "n2", [.semanticMatch ⟨[⟨"a", false⟩]⟩], none, none⟩

/-- Two-node graph holding `fxSmEdge`. -/
def fxSmGraph : Graph :=
  ⟨"g", none, "gn", "n1", [fxNode "n1", fxNode "n2"], [fxSmEdge]⟩

/-- A ready scorer that scores every candidate `-1`. -/
def fxSvcNeg : SemanticMatchService :=
  ⟨true, 3 / 4, fun _ cs => cs.map fun _ => -1⟩

/-- A ready scorer with threshold `-2` scoring everything `0`. -/
def fxSvcLowThr : SemanticMatchService :=
  ⟨true, -2, fun _ _ => [0]⟩

/-- An edge whose only semantic rule has a single anti-example. -/
def fxAntiEdge : Edge :=
  ⟨fxNode "n1", fxNode "n2", [.semanticMatch ⟨[⟨"x", true⟩]⟩], none, none⟩

/-! ## Small lemmas about the JS map model -/

lemma JsMap.get_eq_none_of_not_hasKey {α : Type} {m : JsMap α} {k : String}
    (h : m.hasKey k = false) : m.get k = none := by
  unfold JsMap.hasKey at h
  cases hm : m.get k with
  | none => rfl
  | some v => rw [hm] at h; simp at h

/-! ## Claim C1 — Forbid-condition filtering

The source's `FORBID` branch of `getOutEdges` fails the edge when
`world.has(key) || world.get(key) === value`: mere presence of the key
excludes the edge, whatever its value.  The claim's "included when the
key is present with a different value" is false.
-/

/-- C1 (counterexample): with world `{k ↦ "other"}` and the single
condition `Forbid(k, v)`, the claim predicts inclusion (`world[k] ≠ v`),
but `getOutEdges` excludes the edge. -/
theorem c1_counterexample :
    ¬ ((fxForbidEdge ∈ getOutEdges (fxNode "n1") fxForbidGraph
          (some [("k", "other")])) ↔
        JsMap.get [("k", "other")] "k" ≠ some "v") := by
  decide

/-- C1 (amended): for an edge whose condition list is exactly
`[Forbid(k, v)]`, the condition-filtered outgoing-edge query includes it
exactly when the key is *absent* from the world: presence of the key,
with any value, excludes the edge. -/
theorem c1_forbid_excludes_on_presence (node : Node) (graph : Graph)
    (world : World) (edge : Edge) (k v : String)
    (hsrc : edge.source.id = node.id)
    (hcond : edge.conditions = some [⟨.forbid, k, v⟩]) :
    edge ∈ getOutEdges node graph (some world) ↔
      edge ∈ graph.edges ∧ world.hasKey k = false := by
  unfold getOutEdges
  rw [List.mem_filter]
  rw [hcond, hsrc]
  constructor
  · rintro ⟨hmem, hp⟩
    refine ⟨hmem, ?_⟩
    simp only [passesConditions, conditionFails] at hp
    cases hk : world.hasKey k with
    | false => rfl
    | true => rw [hk] at hp; simp at hp
  · rintro ⟨hmem, hk⟩
    refine ⟨hmem, ?_⟩
    simp only [passesConditions, conditionFails, hk,
      JsMap.get_eq_none_of_not_hasKey hk]
    simp

/-- C1 (witness for the amended theorem): empty world, edge included. -/
theorem c1_forbid_excludes_on_presence_witness :
    fxForbidEdge ∈ getOutEdges (fxNode "n1") fxForbidGraph (some []) ↔
      fxForbidEdge ∈ fxForbidGraph.edges ∧
        JsMap.hasKey ([] : World) "k" = false :=
  c1_forbid_excludes_on_presence (fxNode "n1") fxForbidGraph [] fxForbidEdge
    "k" "v" rfl rfl

/-! ## Claim C7 — edge name derivation

`getEdgeName` ends in `return firstPositiveExample || ''`: when the first
semantic rule has no positive candidate the result is the empty string,
not `null`; `null` only means "no semantic rule at all".
-/

/-- C7 (counterexample): a rule whose only candidate is an anti-example
yields the empty string, not `null`. -/
theorem c7_counterexample :
    getEdgeName fxAntiEdge = some "" ∧ getEdgeName fxAntiEdge ≠ none := by
  decide

/-- C7 (amended): `getEdgeName` returns `null` exactly when the edge has
no SemanticMatch rule; otherwise it returns the text of the first
non-anti-example candidate of the first SemanticMatch rule, degraded to
the empty string when there is no such candidate (or its text is empty). -/
theorem c7_edge_name_characterization (edge : Edge) :
    getEdgeName edge =
      (edge.rules.findSome? fun r =>
        match r with
        | .semanticMatch d => some d
        | .repeatedFail _ => none).map
        fun r =>
          (((r.matchCandidates.find? fun c => !c.antiExample).map (·.text)).getD "") := by
  unfold getEdgeName
  have hfind : firstSemanticMatchRuleData edge.rules =
      edge.rules.findSome? fun r =>
        match r with
        | .semanticMatch d => some d
        | .repeatedFail _ => none := by
    induction edge.rules with
    | nil => rfl
    | cons r rest ih =>
        cases r with
        | semanticMatch d => simp [firstSemanticMatchRuleData, List.findSome?]
        | repeatedFail d => simpa [firstSemanticMatchRuleData, List.findSome?] using ih
  rw [hfind]
  cases hr : edge.rules.findSome? fun r =>
      match r with
      | .semanticMatch d => some d
      | .repeatedFail _ => none with
  | none => rfl
  | some rule =>
      have hpos : ∀ cs : List MatchCandidate,
          firstPositiveExample cs = (cs.find? fun c => !c.antiExample).map (·.text) := by
        intro cs
        induction cs with
        | nil => rfl
        | cons c rest ih =>
            cases hc : c.antiExample with
            | true => simp [firstPositiveExample, List.find?, hc, ih]
            | false => simp [firstPositiveExample, List.find?, hc]
      simp only [Option.map_some, hpos]
      cases hf : (rule.matchCandidates.find? fun c => !c.antiExample) with
      | none => simp [hf]
      | some c =>
          by_cases ht : c.text = "" <;> simp [hf, ht]

/-! ## Structure lemmas about the two scanning loops of `evaluate` -/

/-- The fallback loop never touches the world. -/
lemma fallbackScan_world (l : List (Edge × EdgeRule)) (r : InferenceResult) :
    (fallbackScan l r).state.world = r.state.world := by
  induction l generalizing r with
  | nil => rfl
  | cons p rest ih =>
      obtain ⟨e, rule⟩ := p
      cases rule with
      | semanticMatch d => simpa [fallbackScan] using ih r
      | repeatedFail d =>
          simp only [fallbackScan]
          split
          · exact ih _
          · exact ih _

/-- The fallback loop never touches the scored-rule report. -/
lemma fallbackScan_scored (l : List (Edge × EdgeRule)) (r : InferenceResult) :
    (fallbackScan l r).scoredSemanticMatchRules = r.scoredSemanticMatchRules := by
  induction l generalizing r with
  | nil => rfl
  | cons p rest ih =>
      obtain ⟨e, rule⟩ := p
      cases rule with
      | semanticMatch d => simpa [fallbackScan] using ih r
      | repeatedFail d =>
          simp only [fallbackScan]
          split
          · exact ih _
          · exact ih _

/-- The fallback loop either keeps its input unchanged or ends with a
repeated-fail winner drawn from the scanned pair list, with the node set
to that edge's target and the attempt counter reset. -/
lemma fallbackScan_shape (l : List (Edge × EdgeRule)) (r : InferenceResult) :
    fallbackScan l r = r ∨
      ∃ e d, (e, EdgeRule.repeatedFail d) ∈ l ∧
        (fallbackScan l r).edge = some e ∧
        (fallbackScan l r).rule = some (.repeatedFail d) ∧
        (fallbackScan l r).state.node = e.target ∧
        (fallbackScan l r).state.attemptNumber = 0 := by
  induction l generalizing r with
  | nil => exact Or.inl rfl
  | cons p rest ih =>
      obtain ⟨e, rule⟩ := p
      cases rule with
      | semanticMatch d =>
          rcases ih r with h | ⟨e₂, d₂, hmem, h₁, h₂, h₃, h₄⟩
          · exact Or.inl (by simpa [fallbackScan] using h)
          · exact Or.inr ⟨e₂, d₂, by simp [hmem],
              by simpa [fallbackScan] using h₁, by simpa [fallbackScan] using h₂,
              by simpa [fallbackScan] using h₃, by simpa [fallbackScan] using h₄⟩
      | repeatedFail d =>
          by_cases hc : ((r.state.attemptNumber : Rat) ≥ d.failCount)
          · set r2 : InferenceResult :=
              { r with
                state := { r.state with attemptNumber := 0, node := e.target },
                edge := some e,
                rule := some (.repeatedFail d) } with hr2
            have hstep : fallbackScan ((e, EdgeRule.repeatedFail d) :: rest) r =
                fallbackScan rest r2 := by
              simp [fallbackScan, hc, hr2]
            rcases ih r2 with h | ⟨e₂, d₂, hmem, h₁, h₂, h₃, h₄⟩
            · refine Or.inr ⟨e, d, by simp, ?_, ?_, ?_, ?_⟩ <;>
                rw [hstep, h, hr2]
            · exact Or.inr ⟨e₂, d₂, by simp [hmem],
                by rw [hstep]; exact h₁, by rw [hstep]; exact h₂,
                by rw [hstep]; exact h₃, by rw [hstep]; exact h₄⟩
          · rcases ih r with h | ⟨e₂, d₂, hmem, h₁, h₂, h₃, h₄⟩
            · exact Or.inl (by simpa [fallbackScan, hc] using h)
            · exact Or.inr ⟨e₂, d₂, by simp [hmem],
                by simpa [fallbackScan, hc] using h₁,
                by simpa [fallbackScan, hc] using h₂,
                by simpa [fallbackScan, hc] using h₃,
                by simpa [fallbackScan, hc] using h₄⟩

/-- The semantic-match loop only ever installs a semantic rule as the
running best. -/
lemma semanticScan_bestRule_shape (svc : SemanticMatchService) (u : String)
    (l : List (Edge × EdgeRule)) (st st₂ : BestState)
    (h : semanticScan svc u l st = some st₂)
    (hst : st.bestRule = none ∨ ∃ d, st.bestRule = some (.semanticMatch d)) :
    st₂.bestRule = none ∨ ∃ d, st₂.bestRule = some (.semanticMatch d) := by
  induction l generalizing st with
  | nil =>
      simp only [semanticScan, Option.some_inj] at h
      exact h ▸ hst
  | cons p rest ih =>
      obtain ⟨e, rule⟩ := p
      cases rule with
      | repeatedFail d =>
          exact ih _ (by simpa [semanticScan] using h) hst
      | semanticMatch d =>
          cases hcheck : checkSemanticMatchRule svc u d with
          | none => simp [semanticScan, hcheck] at h
          | some res =>
              cases hms : res.maxScore with
              | none =>
                  simp only [semanticScan, hcheck, hms] at h
                  exact ih _ h hst
              | some topScore =>
                  simp only [semanticScan, hcheck, hms] at h
                  by_cases hcond : (topScore != 0 && decide (topScore > svc.threshold) &&
                      decide (topScore > st.bestScore)) = true
                  · rw [if_pos hcond] at h
                    exact ih _ h (Or.inr ⟨d, rfl⟩)
                  · rw [if_neg hcond] at h
                    exact ih _ h hst

/-- When `evaluate` returns with a repeated-fail winner, the evaluation
went through the fallback branch: the world is returned untouched, the
attempt counter is reset, and the winning edge is drawn from
`getRepeatedFailEdges` (the condition-unfiltered query). -/
lemma evaluate_fallback_winner (svc : SemanticMatchService) (graph : Graph)
    (utterance : String) (state : InferenceState) (r : InferenceResult)
    (d : RepeatedFailRule)
    (h : evaluate svc graph utterance state = some r)
    (hr : r.rule = some (.repeatedFail d)) :
    r.state.world = state.world ∧ r.state.attemptNumber = 0 ∧
      ∃ e, r.edge = some e ∧ r.state.node = e.target ∧
        e ∈ getRepeatedFailEdges state.node graph := by
  by_cases hready : svc.ready = true
  · replace h : (match semanticScan svc utterance
        ((getOutEdges state.node graph state.world).flatMap fun e =>
          e.rules.map fun rl => (e, rl)) ⟨0, none, none, 0, []⟩ with
      | none => (none : Option InferenceResult)
      | some st =>
          let result : InferenceResult :=
            { state := { attemptNumber := state.attemptNumber + 1,
                         node := state.node, world := state.world },
              scoredSemanticMatchRules := st.scored }
          match st.bestEdge with
          | some bestEdge =>
              let result := { result with
                scoredSemanticMatchRules :=
                  setChosenAt st.scored st.bestSemanticMatchRuleIndex,
                state := { result.state with
                  attemptNumber := 0, node := bestEdge.target },
                edge := some bestEdge,
                rule := st.bestRule }
              some (match result.state.world with
                | some w =>
                    { result with state :=
                        { result.state with world := some (applyMutations w bestEdge) } }
                | none => result)
          | none =>
              let fallbackPairs :=
                (getRepeatedFailEdges result.state.node graph).flatMap
                  fun e => e.rules.map fun rl => (e, rl)
              some (fallbackScan fallbackPairs result)) = some r := by
      rw [← h]; simp [evaluate, hready]
    cases hscan : semanticScan svc utterance
        ((getOutEdges state.node graph state.world).flatMap fun e =>
          e.rules.map fun rl => (e, rl)) ⟨0, none, none, 0, []⟩ with
    | none => simp only [hscan] at h; exact absurd h (by simp)
    | some st =>
        simp only [hscan] at h
        have hrule : st.bestRule = none ∨ ∃ d₂, st.bestRule = some (.semanticMatch d₂) :=
          semanticScan_bestRule_shape svc utterance _ _ _ hscan (Or.inl rfl)
        cases hbest : st.bestEdge with
        | some bestEdge =>
            simp only [hbest] at h
            have hrrule : r.rule = st.bestRule := by
              cases hw : state.world with
              | none => simp only [hw] at h; rw [← Option.some_inj.mp h]
              | some w => simp only [hw] at h; rw [← Option.some_inj.mp h]
            rcases hrule with h0 | ⟨d₂, h2⟩
            · rw [hrrule, h0] at hr; exact absurd hr (by simp)
            · rw [hrrule, h2] at hr; exact absurd hr (by simp)
        | none =>
            simp only [hbest] at h
            replace h := Option.some_inj.mp h
            set result0 : InferenceResult :=
              { state := { attemptNumber := state.attemptNumber + 1,
                           node := state.node, world := state.world },
                scoredSemanticMatchRules := st.scored } with hres0
            set fp := (getRepeatedFailEdges state.node graph).flatMap
              (fun e => e.rules.map fun rl => (e, rl)) with hfp
            have hreq : r = fallbackScan fp result0 := by rw [← h]
            rcases fallbackScan_shape fp result0 with hsame | ⟨e, d₂, hmem, h₁, h₂, h₃, h₄⟩
            · rw [hreq, hsame] at hr
              exact absurd hr (by simp [hres0])
            · refine ⟨?_, ?_, e, ?_, ?_, ?_⟩
              · rw [hreq, fallbackScan_world]
              · rw [hreq]; exact h₄
              · rw [hreq]; exact h₁
              · rw [hreq]; exact h₃
              · rw [hfp, List.mem_flatMap] at hmem
                rcases hmem with ⟨e₂, he₂, hpair⟩
                rcases List.mem_map.mp hpair with ⟨rl, _, hpr⟩
                cases hpr
                exact he₂
  · exfalso
    have : evaluate svc graph utterance state = none := by
      simp [evaluate, hready]
    rw [this] at h
    exact absurd h (by simp)

/-! ## Claim C2 — mutations on a repeated-fail fallback transition

In the source, `applyMutations` is called only in the semantic-match
branch of `evaluate`; the repeated-fail branch updates node and attempt
counter but leaves the world untouched.
-/

/-- C2 (counterexample): a fallback edge carrying `Add(x, 1)` wins, yet
the returned world is unchanged — applying the mutations as the claim
demands would have produced `{x ↦ 1}`. -/
theorem c2_counterexample :
    (evaluate fxSvcEmpty fxMutGraph "u" ⟨fxNode "n1", 0, some []⟩).map
        (fun r => (r.edge, r.rule, r.state.world)) =
      some (some fxMutEdge, some (.repeatedFail ⟨none, 0⟩), some []) ∧
      applyMutations [] fxMutEdge = [("x", "1")] ∧
      ([("x", "1")] : World) ≠ ([] : World) := by
  refine ⟨?_, rfl, by decide⟩
  decide

/-- C2 (amended): when a RepeatedFail fallback edge wins, the new node is
the edge's target and the attempt counter is reset, but the winning
edge's mutations are *not* applied: the world is returned exactly as it
came in. -/
theorem c2_fallback_skips_mutations (svc : SemanticMatchService)
    (graph : Graph) (utterance : String) (state : InferenceState)
    (r : InferenceResult) (d : RepeatedFailRule)
    (h : evaluate svc graph utterance state = some r)
    (hr : r.rule = some (.repeatedFail d)) :
    r.state.world = state.world ∧ r.state.attemptNumber = 0 ∧
      ∃ e, r.edge = some e ∧ r.state.node = e.target := by
  obtain ⟨hw, ha, e, he, ht, _⟩ :=
    evaluate_fallback_winner svc graph utterance state r d h hr
  exact ⟨hw, ha, e, he, ht⟩

/-- C2 (witness): the amended theorem applied to the mutation fixture. -/
theorem c2_fallback_skips_mutations_witness :
    ∃ r, evaluate fxSvcEmpty fxMutGraph "u" ⟨fxNode "n1", 0, some []⟩ = some r ∧
      r.state.world = some [] ∧ r.state.attemptNumber = 0 ∧
      ∃ e, r.edge = some e ∧ r.state.node = e.target := by
  have h : evaluate fxSvcEmpty fxMutGraph "u" ⟨fxNode "n1", 0, some []⟩ =
      some ⟨⟨fxNode "n2", 0, some []⟩, [], some fxMutEdge,
        some (.repeatedFail ⟨none, 0⟩)⟩ := by decide
  obtain ⟨hw, ha, e, he, ht⟩ := c2_fallback_skips_mutations fxSvcEmpty fxMutGraph
    "u" ⟨fxNode "n1", 0, some []⟩ _ ⟨none, 0⟩ h rfl
  exact ⟨_, h, hw, ha, e, he, ht⟩

/-! ## Claim C3 — which edges the fallback scan considers

The source calls `getRepeatedFailEdges(node, graph)`, which queries the
outgoing edges with an `undefined` world: the condition filter that gated
the semantic scan is *not* applied, so an edge whose conditions fail
under the current world can still win as a fallback.
-/

/-- C3 (counterexample): `fxCondRfEdge` is guarded by `Require(k, v)`,
which fails under the empty world — it is excluded from the
condition-filtered query — yet `evaluate` takes it as the fallback. -/
theorem c3_counterexample :
    (evaluate fxSvcEmpty fxCondRfGraph "u" ⟨fxNode "n1", 0, some []⟩).map
        (fun r => r.edge) = some (some fxCondRfEdge) ∧
      fxCondRfEdge ∉ getOutEdges (fxNode "n1") fxCondRfGraph (some []) := by
  refine ⟨?_, by decide⟩
  decide

/-- C3 (amended): the fallback scan considers exactly the repeated-fail
restriction of the *unfiltered* outgoing-edge query (world omitted), not
the condition-filtered query used for semantic scanning: any winning
fallback edge is an outgoing repeated-fail-only edge, with no condition
check against the current world. -/
theorem c3_fallback_scans_unfiltered_edges (svc : SemanticMatchService)
    (graph : Graph) (utterance : String) (state : InferenceState)
    (r : InferenceResult) (d : RepeatedFailRule)
    (h : evaluate svc graph utterance state = some r)
    (hr : r.rule = some (.repeatedFail d)) :
    ∃ e, r.edge = some e ∧ e ∈ getOutEdges state.node graph none ∧
      isRepeatedFail e = true := by
  obtain ⟨_, _, e, he, _, hmem⟩ :=
    evaluate_fallback_winner svc graph utterance state r d h hr
  unfold getRepeatedFailEdges at hmem
  exact ⟨e, he, (List.mem_filter.mp hmem).1, (List.mem_filter.mp hmem).2⟩

/-- C3 (witness): the amended theorem applied to the condition fixture. -/
theorem c3_fallback_scans_unfiltered_edges_witness :
    ∃ r, evaluate fxSvcEmpty fxCondRfGraph "u" ⟨fxNode "n1", 0, some []⟩ = some r ∧
      ∃ e, r.edge = some e ∧
        e ∈ getOutEdges (fxNode "n1") fxCondRfGraph none ∧
        isRepeatedFail e = true := by
  have h : evaluate fxSvcEmpty fxCondRfGraph "u" ⟨fxNode "n1", 0, some []⟩ =
      some ⟨⟨fxNode "n2", 0, some []⟩, [], some fxCondRfEdge,
        some (.repeatedFail ⟨none, 0⟩)⟩ := by decide
  exact ⟨_, h, c3_fallback_scans_unfiltered_edges fxSvcEmpty fxCondRfGraph
    "u" ⟨fxNode "n1", 0, some []⟩ _ ⟨none, 0⟩ h rfl⟩

/-! ## Claim C4 — when the repeated-fail fallback first fires

The fallback comparison reads `result.state.attemptNumber`, which at that
point already holds the incremented value `state.attemptNumber + 1`: the
fallback fires as soon as `attemptNumber + 1 ≥ failCount`, i.e. one call
earlier than the claim's `attemptNumber ≥ failCount`.
-/

/-- Filtering a singleton keeps it or drops it. -/
lemma filter_singleton_cases {α : Type} (p : α → Bool) (e : α) :
    List.filter p [e] = [e] ∨ List.filter p [e] = [] := by
  cases hp : p e <;> simp [List.filter, hp]

/-- Evaluating at a node whose only outgoing edge carries a single
`RepeatedFail(failMessage, failCount)` rule: no semantic rule exists, so
the result is the fallback transition when `attemptNumber + 1 ≥ failCount`
and a plain increment otherwise. -/
lemma evaluate_only_rf_edge (svc : SemanticMatchService) (graph : Graph)
    (u : String) (n : Node) (e : Edge) (m : Option String) (c : Rat)
    (w : Option World) (k : Nat)
    (hready : svc.ready = true) (hedges : graph.edges = [e])
    (hsrc : e.source.id = n.id) (hrules : e.rules = [.repeatedFail ⟨m, c⟩]) :
    evaluate svc graph u ⟨n, k, w⟩ =
      some (if ((k + 1 : Nat) : Rat) ≥ c then
        ⟨⟨e.target, 0, w⟩, [], some e, some (.repeatedFail ⟨m, c⟩)⟩
      else ⟨⟨n, k + 1, w⟩, [], none, none⟩) := by
  have hgo : ∀ ow : Option World, getOutEdges n graph ow = [e] ∨
      getOutEdges n graph ow = [] := by
    intro ow
    unfold getOutEdges
    rw [hedges]
    exact filter_singleton_cases _ e
  have hfp : getRepeatedFailEdges n graph = [e] := by
    unfold getRepeatedFailEdges getOutEdges
    rw [hedges]
    simp [hsrc, isRepeatedFail, hrules, isRepeatedFailAux]
  have hsem : semanticScan svc u
      ((getOutEdges n graph w).flatMap fun e2 => e2.rules.map fun rl => (e2, rl))
      ⟨0, none, none, 0, []⟩ = some ⟨0, none, none, 0, []⟩ := by
    rcases hgo w with h1 | h1 <;> rw [h1] <;> simp [hrules, semanticScan]
  unfold evaluate
  rw [hready]
  simp only [Bool.not_true, Bool.false_eq_true, if_false]
  rw [hsem]
  simp only [hfp]
  by_cases hc : ((k + 1 : Nat) : Rat) ≥ c
  · simp [fallbackScan, hc, hrules]
  · simp [fallbackScan, hc, hrules]

/-- C4 (counterexample): with `failCount = 3` and `attemptNumber`
starting at 0, already the *third* call transitions (incoming
`attemptNumber = 2 < 3`), contradicting "the first three step/evaluate
calls produce no transition and the fourth call is the first one that
transitions". -/
theorem c4_counterexample :
    (evaluate fxSvcEmpty fxRfGraph "u" ⟨fxNode "n1", 0, some []⟩).map
        (fun r => (r.edge, r.state.attemptNumber)) = some (none, 1) ∧
    (evaluate fxSvcEmpty fxRfGraph "u" ⟨fxNode "n1", 1, some []⟩).map
        (fun r => (r.edge, r.state.attemptNumber)) = some (none, 2) ∧
    (evaluate fxSvcEmpty fxRfGraph "u" ⟨fxNode "n1", 2, some []⟩).map
        (fun r => (r.edge, r.state.attemptNumber)) =
      some (some fxRfEdge, 0) := by
  refine ⟨by decide, by decide, by decide⟩

/-- C4 (amended): for a session starting with `attemptNumber = 0` at a
node whose only outgoing edge carries a single RepeatedFail rule with
`failCount = 3`, the first two calls produce no transition (attemptNumber
becoming 1 and 2) and the *third* call transitions via the fallback: the
fallback fires on the first call whose incoming attemptNumber satisfies
`attemptNumber + 1 ≥ failCount`. -/
theorem c4_fallback_on_third_call (svc : SemanticMatchService) (graph : Graph)
    (u₁ u₂ u₃ : String) (n : Node) (e : Edge) (m : Option String)
    (w : Option World)
    (hready : svc.ready = true) (hedges : graph.edges = [e])
    (hsrc : e.source.id = n.id) (hrules : e.rules = [.repeatedFail ⟨m, 3⟩]) :
    evaluate svc graph u₁ ⟨n, 0, w⟩ = some ⟨⟨n, 1, w⟩, [], none, none⟩ ∧
    evaluate svc graph u₂ ⟨n, 1, w⟩ = some ⟨⟨n, 2, w⟩, [], none, none⟩ ∧
    evaluate svc graph u₃ ⟨n, 2, w⟩ =
      some ⟨⟨e.target, 0, w⟩, [], some e, some (.repeatedFail ⟨m, 3⟩)⟩ := by
  refine ⟨?_, ?_, ?_⟩
  · rw [evaluate_only_rf_edge svc graph u₁ n e m 3 w 0 hready hedges hsrc hrules,
      if_neg (by norm_num)]
  · rw [evaluate_only_rf_edge svc graph u₂ n e m 3 w 1 hready hedges hsrc hrules,
      if_neg (by norm_num)]
  · rw [evaluate_only_rf_edge svc graph u₃ n e m 3 w 2 hready hedges hsrc hrules,
      if_pos (by norm_num)]

/-- C4 (witness): the amended theorem on the `failCount = 3` fixture. -/
theorem c4_fallback_on_third_call_witness :
    evaluate fxSvcEmpty fxRfGraph "a" ⟨fxNode "n1", 0, some []⟩ =
      some ⟨⟨fxNode "n1", 1, some []⟩, [], none, none⟩ ∧
    evaluate fxSvcEmpty fxRfGraph "b" ⟨fxNode "n1", 1, some []⟩ =
      some ⟨⟨fxNode "n1", 2, some []⟩, [], none, none⟩ ∧
    evaluate fxSvcEmpty fxRfGraph "c" ⟨fxNode "n1", 2, some []⟩ =
      some ⟨⟨fxRfEdge.target, 0, some []⟩, [], some fxRfEdge,
        some (.repeatedFail ⟨none, 3⟩)⟩ :=
  c4_fallback_on_third_call fxSvcEmpty fxRfGraph "a" "b" "c" (fxNode "n1")
    fxRfEdge none (some []) rfl rfl rfl rfl

/-! ## Spec-side score bookkeeping (for C5, C6, C10)

These definitions formalize the spec's wording — "find the index of the
maximum score (first index wins ties)" — independently of the scanning
loops, so that the loops can be proved to refine them.  `specMaxScore`
uses the same `-1` base as the loop's sentinel.
-/

/-- Spec-side: maximum of a score list (`-1` for the empty list). -/
def specMaxScore : List Rat → Rat
  | [] => -1
  | s :: rest => max s (specMaxScore rest)

/-- Spec-side: index of the first occurrence of `x`. -/
def specFirstIndexOf (x : Rat) : List Rat → Nat
  | [] => 0
  | s :: rest => if s = x then 0 else specFirstIndexOf x rest + 1

/-- Spec-side: first index attaining the maximum score. -/
def specFirstMaxIndex (scores : List Rat) : Nat :=
  specFirstIndexOf (specMaxScore scores) scores

lemma le_specMaxScore {s : Rat} {l : List Rat} (h : s ∈ l) :
    s ≤ specMaxScore l := by
  induction l with
  | nil => cases h
  | cons a rest ih =>
      rcases List.mem_cons.mp h with rfl | hm
      · exact le_max_left _ _
      · exact le_trans (ih hm) (le_max_right _ _)

lemma exists_gt_of_specMaxScore_gt {l : List Rat} {b : Rat}
    (h : specMaxScore l > b) (hb : -1 ≤ b) : ∃ s ∈ l, b < s := by
  induction l with
  | nil => exact absurd h (by simp [specMaxScore]; exact hb)
  | cons a rest ih =>
      rcases max_cases a (specMaxScore rest) with ⟨hm, _⟩ | ⟨hm, _⟩
      · exact ⟨a, List.mem_cons_self a rest, by
          simpa [specMaxScore, hm] using h⟩
      · rw [specMaxScore, hm] at h
        obtain ⟨s, hs, hbs⟩ := ih h
        exact ⟨s, List.mem_cons_of_mem _ hs, hbs⟩

/-- The candidate loop reports every candidate, in order, with its score. -/
lemma candidateScan_scored (l : List (MatchCandidate × Rat)) (i : Nat)
    (st : CandidateScanState) :
    (candidateScan l i st).scoredCandidates =
      st.scoredCandidates ++ l.map fun p => ⟨p.1, p.2, false⟩ := by
  induction l generalizing i st with
  | nil => simp [candidateScan]
  | cons p rest ih =>
      obtain ⟨c, s⟩ := p
      by_cases hc : s > st.maxScore <;> simp [candidateScan, hc, ih]

/-- When no remaining score beats the running maximum, the max-tracking
fields come out unchanged. -/
lemma candidateScan_stay (l : List (MatchCandidate × Rat)) (i : Nat)
    (st : CandidateScanState)
    (h : ¬ specMaxScore (l.map Prod.snd) > st.maxScore) :
    (candidateScan l i st).maxIndex = st.maxIndex ∧
    (candidateScan l i st).maxScore = st.maxScore ∧
    (candidateScan l i st).maxPositive = st.maxPositive := by
  induction l generalizing i st with
  | nil => simp [candidateScan]
  | cons p rest ih =>
      obtain ⟨c, s⟩ := p
      have hs : ¬ s > st.maxScore := fun hgt =>
        h (lt_of_lt_of_le hgt (by simp [specMaxScore, le_max_left]))
      have hrest : ¬ specMaxScore (rest.map Prod.snd) > st.maxScore := fun hgt =>
        h (lt_of_lt_of_le hgt (by simp [specMaxScore, le_max_right]))
      simpa [candidateScan, hs] using
        ih (i + 1)
          { st with scoredCandidates := st.scoredCandidates ++ [⟨c, s, false⟩] }
          hrest

/-- When some remaining score beats the running maximum, the loop lands
on the *first* index attaining the maximum of the remaining scores, with
that candidate's polarity. -/
lemma candidateScan_argmax (l : List (MatchCandidate × Rat)) (i : Nat)
    (st : CandidateScanState)
    (h : specMaxScore (l.map Prod.snd) > st.maxScore)
    (hst : -1 ≤ st.maxScore) :
    ∃ p, l[specFirstMaxIndex (l.map Prod.snd)]? = some p ∧
      (candidateScan l i st).maxIndex =
        some (i + specFirstMaxIndex (l.map Prod.snd)) ∧
      (candidateScan l i st).maxScore = specMaxScore (l.map Prod.snd) ∧
      (candidateScan l i st).maxPositive = !p.1.antiExample := by
  induction l generalizing i st with
  | nil => exact absurd h (by simp [specMaxScore]; exact hst)
  | cons p rest ih =>
      obtain ⟨c, s⟩ := p
      by_cases hs : s > st.maxScore
      · set st2 : CandidateScanState :=
          { maxIndex := some i, maxScore := s, maxPositive := !c.antiExample,
            scoredCandidates := st.scoredCandidates ++ [⟨c, s, false⟩] } with hst2
        have hstep : candidateScan ((c, s) :: rest) i st =
            candidateScan rest (i + 1) st2 := by
          simp [candidateScan, hs, hst2]
        by_cases hX : specMaxScore (rest.map Prod.snd) > s
        · obtain ⟨q, hq, h₁, h₂, h₃⟩ := ih (i + 1) st2
            (by simpa [hst2] using hX) (le_trans hst (le_of_lt hs))
          have hM : specMaxScore (((c, s) :: rest).map Prod.snd) =
              specMaxScore (rest.map Prod.snd) := by
            simp [specMaxScore, max_eq_right (le_of_lt hX)]
          have hj : specFirstMaxIndex (((c, s) :: rest).map Prod.snd) =
              specFirstMaxIndex (rest.map Prod.snd) + 1 := by
            unfold specFirstMaxIndex
            rw [hM]
            simp [specFirstIndexOf, ne_of_lt hX]
          refine ⟨q, ?_, ?_, ?_, ?_⟩
          · rw [hj]; simpa using hq
          · rw [hstep, h₁, hj]; congr 1; omega
          · rw [hstep, h₂, hM]
          · rw [hstep, h₃]
        · obtain ⟨h₁, h₂, h₃⟩ := candidateScan_stay rest (i + 1) st2
            (by simpa [hst2] using hX)
          have hM : specMaxScore (((c, s) :: rest).map Prod.snd) = s := by
            simp only [List.map_cons, specMaxScore]
            exact max_eq_left (le_of_not_lt hX)
          have hj : specFirstMaxIndex (((c, s) :: rest).map Prod.snd) = 0 := by
            unfold specFirstMaxIndex
            rw [hM]
            simp [specFirstIndexOf]
          refine ⟨(c, s), by rw [hj]; simp, ?_, ?_, ?_⟩
          · rw [hstep, h₁, hj, hst2]; simp
          · rw [hstep, h₂, hM, hst2]
          · rw [hstep, h₃, hst2]
      · have hstep : candidateScan ((c, s) :: rest) i st =
            candidateScan rest (i + 1)
              { st with scoredCandidates := st.scoredCandidates ++ [⟨c, s, false⟩] } := by
          simp [candidateScan, hs]
        have hX : specMaxScore (rest.map Prod.snd) > st.maxScore := by
          have hsle : s ≤ st.maxScore := le_of_not_lt hs
          have : specMaxScore (((c, s) :: rest).map Prod.snd) =
              max s (specMaxScore (rest.map Prod.snd)) := by
            simp [specMaxScore]
          rw [this] at h
          rcases max_cases s (specMaxScore (rest.map Prod.snd)) with ⟨hm, _⟩ | ⟨hm, _⟩
          · rw [hm] at h; exact absurd h (not_lt_of_le hsle)
          · rwa [hm] at h
        obtain ⟨q, hq, h₁, h₂, h₃⟩ := ih (i + 1)
          { st with scoredCandidates := st.scoredCandidates ++ [⟨c, s, false⟩] }
          hX hst
        have hM : specMaxScore (((c, s) :: rest).map Prod.snd) =
            specMaxScore (rest.map Prod.snd) := by
          simp only [List.map_cons, specMaxScore]
          exact max_eq_right (le_trans (le_of_not_lt hs)
            (le_of_lt hX))
        have hj : specFirstMaxIndex (((c, s) :: rest).map Prod.snd) =
            specFirstMaxIndex (rest.map Prod.snd) + 1 := by
          unfold specFirstMaxIndex
          rw [hM]
          have hne : s ≠ specMaxScore (rest.map Prod.snd) :=
            ne_of_lt (lt_of_le_of_lt (le_of_not_lt hs) hX)
          simp [specFirstIndexOf, hne]
        refine ⟨q, ?_, ?_, ?_, ?_⟩
        · rw [hj]; simpa using hq
        · rw [hstep, h₁, hj]; congr 1; omega
        · rw [hstep, h₂, hM]
        · rw [hstep, h₃]

/-- `checkSemanticMatchRule`, non-degenerate case: when some score
exceeds the `-1` sentinel, the rule's reported top-score flag sits at the
first index attaining the maximum score, all candidates are reported in
order with their scores, and the qualifying score (`maxScore`) is the
maximum exactly when the top candidate is not an anti-example. -/
lemma checkSemanticMatchRule_some (svc : SemanticMatchService) (u : String)
    (rule : SemanticMatchRule)
    (hne : rule.matchCandidates ≠ [])
    (hlen : (svc.semanticSimilarity u (rule.matchCandidates.map (·.text))).length
      = rule.matchCandidates.length)
    (hgt : specMaxScore
      (svc.semanticSimilarity u (rule.matchCandidates.map (·.text))) > -1) :
    ∃ c, rule.matchCandidates[specFirstMaxIndex
        (svc.semanticSimilarity u (rule.matchCandidates.map (·.text)))]? = some c ∧
      checkSemanticMatchRule svc u rule = some
        { maxScore := if c.antiExample then none
            else some (specMaxScore
              (svc.semanticSimilarity u (rule.matchCandidates.map (·.text)))),
          scoredCandidates := setTopScoreAt
            ((rule.matchCandidates.zip
                (svc.semanticSimilarity u (rule.matchCandidates.map (·.text)))).map
              fun p => ⟨p.1, p.2, false⟩)
            (specFirstMaxIndex
              (svc.semanticSimilarity u (rule.matchCandidates.map (·.text)))) } := by
  have hmap : (rule.matchCandidates.zip
      (svc.semanticSimilarity u (rule.matchCandidates.map (·.text)))).map Prod.snd =
      svc.semanticSimilarity u (rule.matchCandidates.map (·.text)) :=
    List.map_snd_zip _ _ (le_of_eq hlen)
  obtain ⟨p, hp, h₁, h₂, h₃⟩ := candidateScan_argmax
    (rule.matchCandidates.zip
      (svc.semanticSimilarity u (rule.matchCandidates.map (·.text)))) 0
    ⟨none, -1, false, []⟩ (by rw [hmap]; exact hgt) le_rfl
  rw [hmap] at hp h₁ h₂
  obtain ⟨hc, -⟩ := List.getElem?_zip_eq_some.mp hp
  refine ⟨p.1, hc, ?_⟩
  simp only [checkSemanticMatchRule, if_neg hne, h₁, candidateScan_scored, h₃,
    Nat.zero_add, List.nil_append]
  cases hanti : p.1.antiExample with
  | true => simp [hanti]
  | false => simp [hanti, h₂]

/-- `checkSemanticMatchRule`, degenerate case: with a nonempty candidate
list and no score above `-1`, the running `maxIndex` stays at its
sentinel and the source indexes `scoredCandidates[-1]` — the evaluation
aborts. -/
lemma checkSemanticMatchRule_none (svc : SemanticMatchService) (u : String)
    (rule : SemanticMatchRule)
    (hne : rule.matchCandidates ≠ [])
    (hlen : (svc.semanticSimilarity u (rule.matchCandidates.map (·.text))).length
      = rule.matchCandidates.length)
    (hng : ¬ specMaxScore
      (svc.semanticSimilarity u (rule.matchCandidates.map (·.text))) > -1) :
    checkSemanticMatchRule svc u rule = none := by
  have hmap : (rule.matchCandidates.zip
      (svc.semanticSimilarity u (rule.matchCandidates.map (·.text)))).map Prod.snd =
      svc.semanticSimilarity u (rule.matchCandidates.map (·.text)) :=
    List.map_snd_zip _ _ (le_of_eq hlen)
  obtain ⟨h₁, -, -⟩ := candidateScan_stay (rule.matchCandidates.zip
      (svc.semanticSimilarity u (rule.matchCandidates.map (·.text)))) 0
    ⟨none, -1, false, []⟩ (by rw [hmap]; exact hng)
  simp only [checkSemanticMatchRule, if_neg hne, h₁]

/-! ## Claim C5 — per-rule top-candidate selection and anti-example veto -/

/-- C5 (counterexample): a nonempty rule whose single candidate scores
exactly `-1` makes `checkSemanticMatchRule` abort — no top-score
candidate exists and no scored-candidate list is reported, against the
claim's unconditional "is the candidate at the first index attaining the
maximum score … still reported". -/
theorem c5_counterexample :
    checkSemanticMatchRule fxSvcNeg "u" ⟨[⟨"a", false⟩]⟩ = none ∧
    ([⟨"a", false⟩] : List MatchCandidate) ≠ [] := by
  exact ⟨by decide, by decide⟩

/-- C5 (amended): *provided at least one score exceeds `-1`* (otherwise
the routine aborts, cf. C10), the rule's top-score candidate is the one
at the first index attaining the maximum score, the full candidate list
is reported in order with that flag, and the rule's qualifying score is
the maximum exactly when that candidate is not an anti-example —
otherwise `maxScore` is `none` and the rule can never qualify. -/
theorem c5_top_candidate_and_qualifying (svc : SemanticMatchService)
    (u : String) (rule : SemanticMatchRule)
    (hne : rule.matchCandidates ≠ [])
    (hlen : (svc.semanticSimilarity u (rule.matchCandidates.map (·.text))).length
      = rule.matchCandidates.length)
    (hex : ∃ s ∈ svc.semanticSimilarity u (rule.matchCandidates.map (·.text)),
      -1 < s) :
    ∃ c, rule.matchCandidates[specFirstMaxIndex
        (svc.semanticSimilarity u (rule.matchCandidates.map (·.text)))]? = some c ∧
      checkSemanticMatchRule svc u rule = some
        { maxScore := if c.antiExample then none
            else some (specMaxScore
              (svc.semanticSimilarity u (rule.matchCandidates.map (·.text)))),
          scoredCandidates := setTopScoreAt
            ((rule.matchCandidates.zip
                (svc.semanticSimilarity u (rule.matchCandidates.map (·.text)))).map
              fun p => ⟨p.1, p.2, false⟩)
            (specFirstMaxIndex
              (svc.semanticSimilarity u (rule.matchCandidates.map (·.text)))) } := by
  obtain ⟨s, hs, hlt⟩ := hex
  exact checkSemanticMatchRule_some svc u rule hne hlen
    (lt_of_lt_of_le hlt (le_specMaxScore hs))

/-- C5 (witness): a three-candidate rule with a tie at the top: the flag
lands on the first of the two tied candidates. -/
theorem c5_top_candidate_and_qualifying_witness :
    ∃ c, (SemanticMatchRule.mk [⟨"a", false⟩, ⟨"b", true⟩, ⟨"c", false⟩]).matchCandidates[
        specFirstMaxIndex ((SemanticMatchService.mk true (1 / 2)
          (fun _ _ => [2 / 3, 2 / 3, 1 / 3])).semanticSimilarity "u"
          (([⟨"a", false⟩, ⟨"b", true⟩, ⟨"c", false⟩] : List MatchCandidate).map (·.text)))]? =
      some c ∧
      checkSemanticMatchRule (SemanticMatchService.mk true (1 / 2)
          (fun _ _ => [2 / 3, 2 / 3, 1 / 3])) "u"
          ⟨[⟨"a", false⟩, ⟨"b", true⟩, ⟨"c", false⟩]⟩ = some
        { maxScore := if c.antiExample then none
            else some (specMaxScore ((SemanticMatchService.mk true (1 / 2)
              (fun _ _ => [2 / 3, 2 / 3, 1 / 3])).semanticSimilarity "u"
              (([⟨"a", false⟩, ⟨"b", true⟩, ⟨"c", false⟩] : List MatchCandidate).map (·.text)))),
          scoredCandidates := setTopScoreAt
            ((([⟨"a", false⟩, ⟨"b", true⟩, ⟨"c", false⟩] : List MatchCandidate).zip
                ((SemanticMatchService.mk true (1 / 2)
                  (fun _ _ => [2 / 3, 2 / 3, 1 / 3])).semanticSimilarity "u"
                  (([⟨"a", false⟩, ⟨"b", true⟩, ⟨"c", false⟩] : List MatchCandidate).map (·.text)))).map
              fun p => ⟨p.1, p.2, false⟩)
            (specFirstMaxIndex ((SemanticMatchService.mk true (1 / 2)
              (fun _ _ => [2 / 3, 2 / 3, 1 / 3])).semanticSimilarity "u"
              (([⟨"a", false⟩, ⟨"b", true⟩, ⟨"c", false⟩] : List MatchCandidate).map (·.text)))) } :=
  c5_top_candidate_and_qualifying
    (SemanticMatchService.mk true (1 / 2) (fun _ _ => [2 / 3, 2 / 3, 1 / 3]))
    "u" ⟨[⟨"a", false⟩, ⟨"b", true⟩, ⟨"c", false⟩]⟩ (by decide) rfl
    ⟨2 / 3, by simp, by norm_num⟩

/-! ## Claim C10 — the `scoredCandidates[-1]` out-of-bounds hazard -/

/-- C10: for a nonempty candidate list (and a scorer honouring its
same-length contract), `checkSemanticMatchRule` produces a result *iff*
some score is strictly greater than `-1`; with every score `≤ -1` the
`maxIndex` sentinel survives to the out-of-bounds write and the abort
propagates through the public `evaluate` entry point, as witnessed by a
ready scorer that scores everything `-1`. -/
theorem c10_check_rule_crash_iff (svc : SemanticMatchService) (u : String)
    (rule : SemanticMatchRule)
    (hne : rule.matchCandidates ≠ [])
    (hlen : (svc.semanticSimilarity u (rule.matchCandidates.map (·.text))).length
      = rule.matchCandidates.length) :
    ((checkSemanticMatchRule svc u rule).isSome ↔
      ∃ s ∈ svc.semanticSimilarity u (rule.matchCandidates.map (·.text)), -1 < s) ∧
    evaluate fxSvcNeg fxSmGraph "u" ⟨fxNode "n1", 0, some []⟩ = none := by
  refine ⟨⟨?_, ?_⟩, by decide⟩
  · intro hsome
    by_cases hgt : specMaxScore
        (svc.semanticSimilarity u (rule.matchCandidates.map (·.text))) > -1
    · exact exists_gt_of_specMaxScore_gt hgt le_rfl
    · rw [checkSemanticMatchRule_none svc u rule hne hlen hgt] at hsome
      exact absurd hsome (by simp)
  · rintro ⟨s, hs, hlt⟩
    obtain ⟨c, -, heq⟩ := checkSemanticMatchRule_some svc u rule hne hlen
      (lt_of_lt_of_le hlt (le_specMaxScore hs))
    rw [heq]
    rfl

/-- C10 (witness): the all-`-1` scorer on a one-candidate rule. -/
theorem c10_check_rule_crash_iff_witness :
    ((checkSemanticMatchRule fxSvcNeg "u" ⟨[⟨"a", false⟩]⟩).isSome ↔
      ∃ s ∈ fxSvcNeg.semanticSimilarity "u"
        (([⟨"a", false⟩] : List MatchCandidate).map (·.text)), -1 < s) ∧
    evaluate fxSvcNeg fxSmGraph "u" ⟨fxNode "n1", 0, some []⟩ = none :=
  c10_check_rule_crash_iff fxSvcNeg "u" ⟨[⟨"a", false⟩]⟩ (by decide) rfl

/-! ## Spec-side winner selection (for C6)

The spec's words: "the edge/rule with the globally maximum qualifying
score that also exceeds the Scorer's threshold is the winner; ties keep
the first encountered".  The code additionally requires the score to
beat the initial `bestScore = 0.0` (and JS truthiness discards a score
of exactly `0`), so eligibility below is "above the threshold *and*
above `b`", instantiated with `b = 0` for the claim.
-/

/-- Spec-side: the qualifying score of one scanned (edge, rule) pair. -/
def pairQualifyingScore (svc : SemanticMatchService) (u : String)
    (p : Edge × EdgeRule) : Option Rat :=
  match p.2 with
  | .repeatedFail _ => none
  | .semanticMatch d => (checkSemanticMatchRule svc u d).bind (·.maxScore)

/-- Spec-side: the scanned pairs whose qualifying score exceeds both the
threshold and the bound `b`, each with its score. -/
def specEligible (svc : SemanticMatchService) (u : String) (b : Rat) :
    List (Edge × EdgeRule) → List ((Edge × EdgeRule) × Rat)
  | [] => []
  | p :: rest =>
      match pairQualifyingScore svc u p with
      | some q =>
          if q > svc.threshold ∧ q > b then (p, q) :: specEligible svc u b rest
          else specEligible svc u b rest
      | none => specEligible svc u b rest

/-- Spec-side: the first listed pair carrying score `x`. -/
def specFirstAt (x : Rat) :
    List ((Edge × EdgeRule) × Rat) → Option (Edge × EdgeRule)
  | [] => none
  | (p, s) :: rest => if s = x then some p else specFirstAt x rest

/-- Spec-side: the winner among pairs eligible over the bound `b` — the
first pair attaining the maximal eligible score — with that score. -/
def specWinnerFrom (svc : SemanticMatchService) (u : String) (b : Rat)
    (l : List (Edge × EdgeRule)) : Option ((Edge × EdgeRule) × Rat) :=
  (specFirstAt
      (specMaxScore ((specEligible svc u b l).map (·.2)))
      (specEligible svc u b l)).map
    fun p => (p, specMaxScore ((specEligible svc u b l).map (·.2)))

lemma specEligible_scores_gt (svc : SemanticMatchService) (u : String)
    (b : Rat) (l : List (Edge × EdgeRule)) :
    ∀ pq ∈ specEligible svc u b l, pq.2 > svc.threshold ∧ pq.2 > b := by
  induction l with
  | nil => intro pq hpq; cases hpq
  | cons p rest ih =>
      intro pq hpq
      cases hq : pairQualifyingScore svc u p with
      | none => simp only [specEligible, hq] at hpq; exact ih pq hpq
      | some q =>
          simp only [specEligible, hq] at hpq
          by_cases hcond : q > svc.threshold ∧ q > b
          · rw [if_pos hcond] at hpq
            rcases List.mem_cons.mp hpq with rfl | hm
            · exact hcond
            · exact ih pq hm
          · rw [if_neg hcond] at hpq
            exact ih pq hpq

lemma specMaxScore_mem {l : List Rat} (hne : l ≠ [])
    (hgt : specMaxScore l > -1) : specMaxScore l ∈ l := by
  induction l with
  | nil => exact absurd rfl hne
  | cons s rest ih =>
      rcases max_cases s (specMaxScore rest) with ⟨hm, -⟩ | ⟨hm, -⟩
      · rw [specMaxScore, hm]
        exact List.mem_cons_self _ _
      · rw [specMaxScore, hm]
        rw [specMaxScore, hm] at hgt
        by_cases hrest : rest = []
        · rw [hrest] at hgt
          simp [specMaxScore] at hgt
        · exact List.mem_cons_of_mem _ (ih hrest hgt)

lemma specFirstAt_isSome {x : Rat} {xs : List ((Edge × EdgeRule) × Rat)}
    (h : x ∈ xs.map (·.2)) : ∃ p, specFirstAt x xs = some p := by
  induction xs with
  | nil => cases h
  | cons pq rest ih =>
      obtain ⟨p, s⟩ := pq
      by_cases hs : s = x
      · exact ⟨p, by simp [specFirstAt, hs]⟩
      · rcases List.mem_map.mp h with ⟨⟨p₂, s₂⟩, hm, hx⟩
        rcases List.mem_cons.mp hm with heq | hm₂
        · exact absurd (by rw [heq] at hx; exact hx) hs
        · obtain ⟨p₃, hp₃⟩ := ih (List.mem_map.mpr ⟨(p₂, s₂), hm₂, hx⟩)
          exact ⟨p₃, by simp [specFirstAt, hs, hp₃]⟩

lemma specWinnerFrom_eq_none_iff (svc : SemanticMatchService) (u : String)
    {b : Rat} (hb : -1 ≤ b) (l : List (Edge × EdgeRule)) :
    specWinnerFrom svc u b l = none ↔ specEligible svc u b l = [] := by
  constructor
  · intro h
    by_contra hne
    have hmem : specMaxScore ((specEligible svc u b l).map (·.2)) ∈
        (specEligible svc u b l).map (·.2) := by
      apply specMaxScore_mem (by simpa using hne)
      obtain ⟨pq, hpq⟩ := List.exists_mem_of_ne_nil _ hne
      have := (specEligible_scores_gt svc u b l pq hpq).2
      calc (-1 : Rat) < pq.2 := lt_of_le_of_lt hb this
        _ ≤ _ := le_specMaxScore (List.mem_map.mpr ⟨pq, hpq, rfl⟩)
    obtain ⟨p, hp⟩ := specFirstAt_isSome hmem
    rw [specWinnerFrom, hp] at h
    exact absurd h (by simp)
  · intro h
    rw [specWinnerFrom, h]
    rfl

lemma specFirstAt_eligible_stable (svc : SemanticMatchService) (u : String)
    {b q x : Rat} (hbq : b ≤ q) (hqx : q < x) (l : List (Edge × EdgeRule)) :
    specFirstAt x (specEligible svc u b l) =
      specFirstAt x (specEligible svc u q l) := by
  induction l with
  | nil => rfl
  | cons p rest ih =>
      cases hq : pairQualifyingScore svc u p with
      | none => simp only [specEligible, hq]; exact ih
      | some s =>
          simp only [specEligible, hq]
          by_cases hinQ : s > svc.threshold ∧ s > q
          · have hinB : s > svc.threshold ∧ s > b :=
              ⟨hinQ.1, lt_of_le_of_lt hbq hinQ.2⟩
            rw [if_pos hinQ, if_pos hinB]
            by_cases hsx : s = x
            · simp [specFirstAt, hsx]
            · simp only [specFirstAt, if_neg hsx]
              exact ih
          · by_cases hinB : s > svc.threshold ∧ s > b
            · have hsq : s ≤ q := by
                by_contra hgt
                exact hinQ ⟨hinB.1, lt_of_not_le hgt⟩
              have hsx : ¬ s = x := ne_of_lt (lt_of_le_of_lt hsq hqx)
              rw [if_pos hinB, if_neg hinQ]
              simp only [specFirstAt, if_neg hsx]
              exact ih
            · rw [if_neg hinB, if_neg hinQ]
              exact ih

lemma specMax_eligible_stable (svc : SemanticMatchService) (u : String)
    {b q : Rat} (hbq : b ≤ q) (l : List (Edge × EdgeRule)) :
    max q (specMaxScore ((specEligible svc u b l).map (·.2))) =
      max q (specMaxScore ((specEligible svc u q l).map (·.2))) := by
  induction l with
  | nil => rfl
  | cons p rest ih =>
      cases hq : pairQualifyingScore svc u p with
      | none => simp only [specEligible, hq]; exact ih
      | some s =>
          simp only [specEligible, hq]
          by_cases hinQ : s > svc.threshold ∧ s > q
          · have hinB : s > svc.threshold ∧ s > b :=
              ⟨hinQ.1, lt_of_le_of_lt hbq hinQ.2⟩
            rw [if_pos hinQ, if_pos hinB]
            simp only [List.map_cons, specMaxScore]
            rw [← max_assoc, max_comm q s, max_assoc, ih,
                ← max_assoc, max_comm s q, max_assoc]
          · by_cases hinB : s > svc.threshold ∧ s > b
            · have hsq : s ≤ q := by
                by_contra hgt
                exact hinQ ⟨hinB.1, lt_of_not_le hgt⟩
              rw [if_pos hinB, if_neg hinQ]
              simp only [List.map_cons, specMaxScore]
              rw [← max_assoc, max_eq_left hsq]
              exact ih
            · rw [if_neg hinB, if_neg hinQ]
              exact ih

/-- The semantic-match loop refines the spec-side winner selection: over
any suffix, starting from a state whose running best is nonnegative, the
final best edge/rule/score are unchanged when nothing is eligible above
the running best, and otherwise they are the first pair attaining the
maximal eligible score. -/
lemma semanticScan_winner (svc : SemanticMatchService) (u : String) :
    ∀ (l : List (Edge × EdgeRule)) (st st₂ : BestState),
    semanticScan svc u l st = some st₂ → 0 ≤ st.bestScore →
    (specWinnerFrom svc u st.bestScore l = none →
      st₂.bestEdge = st.bestEdge ∧ st₂.bestRule = st.bestRule ∧
        st₂.bestScore = st.bestScore) ∧
    (∀ p M, specWinnerFrom svc u st.bestScore l = some (p, M) →
      st₂.bestEdge = some p.1 ∧ st₂.bestRule = some p.2 ∧
        st₂.bestScore = M) := by
  intro l
  induction l with
  | nil =>
      intro st st₂ h _
      replace h : st = st₂ := by simpa [semanticScan] using h
      subst h
      constructor
      · intro _; exact ⟨rfl, rfl, rfl⟩
      · intro p M hw
        simp [specWinnerFrom, specEligible, specFirstAt] at hw
  | cons pr rest ih =>
      obtain ⟨e, r⟩ := pr
      intro st st₂ h hb
      cases r with
      | repeatedFail d =>
          have hqual : pairQualifyingScore svc u (e, EdgeRule.repeatedFail d) =
              none := rfl
          have hw : specWinnerFrom svc u st.bestScore
              ((e, EdgeRule.repeatedFail d) :: rest) =
              specWinnerFrom svc u st.bestScore rest := by
            simp [specWinnerFrom, specEligible, hqual]
          rw [hw]
          exact ih st st₂ (by simpa [semanticScan] using h) hb
      | semanticMatch d =>
          cases hcheck : checkSemanticMatchRule svc u d with
          | none => simp [semanticScan, hcheck] at h
          | some res =>
              cases hms : res.maxScore with
              | none =>
                  have hqual : pairQualifyingScore svc u
                      (e, EdgeRule.semanticMatch d) = none := by
                    simp [pairQualifyingScore, hcheck, hms]
                  have hw : specWinnerFrom svc u st.bestScore
                      ((e, EdgeRule.semanticMatch d) :: rest) =
                      specWinnerFrom svc u st.bestScore rest := by
                    simp [specWinnerFrom, specEligible, hqual]
                  rw [hw]
                  have h2 : semanticScan svc u rest
                      { st with scored :=
                          st.scored ++ [⟨res.scoredCandidates, d, false⟩] } =
                      some st₂ := by
                    simpa [semanticScan, hcheck, hms] using h
                  exact ih { st with scored :=
                    st.scored ++ [⟨res.scoredCandidates, d, false⟩] } st₂ h2 hb
              | some q =>
                  have hqual : pairQualifyingScore svc u
                      (e, EdgeRule.semanticMatch d) = some q := by
                    simp [pairQualifyingScore, hcheck, hms]
                  by_cases hP : q > svc.threshold ∧ q > st.bestScore
                  · -- the head qualifies and becomes the new running best
                    have hCP : (q != 0 && decide (q > svc.threshold) &&
                        decide (q > st.bestScore)) = true := by
                      have hq0 : q ≠ 0 :=
                        ne_of_gt (lt_of_le_of_lt hb hP.2)
                      simp [hq0, hP.1, hP.2]
                    have h2 : semanticScan svc u rest
                        { bestScore := q, bestEdge := some e,
                          bestRule := some (EdgeRule.semanticMatch d),
                          bestSemanticMatchRuleIndex := st.scored.length,
                          scored :=
                            st.scored ++ [⟨res.scoredCandidates, d, false⟩] } =
                        some st₂ := by
                      simpa [semanticScan, hcheck, hms, hCP] using h
                    have hbq : (0 : Rat) ≤ q :=
                      le_of_lt (lt_of_le_of_lt hb hP.2)
                    have ihU : (specWinnerFrom svc u q rest = none →
                        st₂.bestEdge = some e ∧
                        st₂.bestRule = some (EdgeRule.semanticMatch d) ∧
                        st₂.bestScore = q) ∧
                        (∀ p M, specWinnerFrom svc u q rest = some (p, M) →
                          st₂.bestEdge = some p.1 ∧ st₂.bestRule = some p.2 ∧
                          st₂.bestScore = M) :=
                      ih _ st₂ h2 hbq
                    have heligible : specEligible svc u st.bestScore
                        ((e, EdgeRule.semanticMatch d) :: rest) =
                        ((e, EdgeRule.semanticMatch d), q) ::
                          specEligible svc u st.bestScore rest := by
                      simp [specEligible, hqual, if_pos hP]
                    have hneg1q : (-1 : Rat) ≤ q := le_trans (by norm_num) hbq
                    cases hw : specWinnerFrom svc u q rest with
                    | none =>
                        have hempty : specEligible svc u q rest = [] :=
                          (specWinnerFrom_eq_none_iff svc u
                            (le_trans (by norm_num) hbq) rest).mp hw
                        have hmax : specMaxScore
                            ((specEligible svc u st.bestScore
                              ((e, EdgeRule.semanticMatch d) :: rest)).map (·.2)) =
                            q := by
                          rw [heligible]
                          simp only [List.map_cons, specMaxScore]
                          have := specMax_eligible_stable svc u
                            (le_of_lt hP.2) rest
                          rw [this, hempty]
                          simp [specMaxScore]
                          exact hneg1q
                        have hwcons : specWinnerFrom svc u st.bestScore
                            ((e, EdgeRule.semanticMatch d) :: rest) =
                            some ((e, EdgeRule.semanticMatch d), q) := by
                          rw [specWinnerFrom, hmax, heligible]
                          simp [specFirstAt]
                        obtain ⟨f1, f2, f3⟩ := ihU.1 hw
                        constructor
                        · intro hcontr
                          rw [hwcons] at hcontr
                          exact absurd hcontr (by simp)
                        · intro p M heq
                          rw [hwcons] at heq
                          obtain ⟨rfl, rfl⟩ :
                              p = (e, EdgeRule.semanticMatch d) ∧ M = q := by
                            have := Option.some_inj.mp heq
                            exact ⟨(congrArg Prod.fst this).symm,
                              (congrArg Prod.snd this).symm⟩
                          exact ⟨f1, f2, f3⟩
                    | some pM =>
                        obtain ⟨p', M'⟩ := pM
                        have hne : specEligible svc u q rest ≠ [] := by
                          intro hcontr
                          rw [(specWinnerFrom_eq_none_iff svc u
                            (le_trans (by norm_num) hbq) rest).mpr hcontr] at hw
                          exact absurd hw (by simp)
                        obtain ⟨p₃, hfa⟩ : ∃ p₃, specFirstAt
                            (specMaxScore ((specEligible svc u q rest).map (·.2)))
                            (specEligible svc u q rest) = some p₃ := by
                          apply specFirstAt_isSome
                          apply specMaxScore_mem (by simpa using hne)
                          obtain ⟨pq, hpq⟩ :=
                            List.exists_mem_of_ne_nil _ hne
                          have hgt := (specEligible_scores_gt svc u q rest pq hpq).2
                          calc (-1 : Rat) < pq.2 :=
                                lt_of_le_of_lt hneg1q hgt
                            _ ≤ _ := le_specMaxScore
                                (List.mem_map.mpr ⟨pq, hpq, rfl⟩)
                        have hwval : p' = p₃ ∧ M' = specMaxScore
                            ((specEligible svc u q rest).map (·.2)) := by
                          rw [specWinnerFrom, hfa] at hw
                          have := Option.some_inj.mp hw
                          exact ⟨(congrArg Prod.fst this).symm,
                            (congrArg Prod.snd this).symm⟩
                        obtain ⟨rfl, hM'⟩ := hwval
                        have hM'gt : q < M' := by
                          obtain ⟨pq, hpq⟩ := List.exists_mem_of_ne_nil _ hne
                          have hgt := (specEligible_scores_gt svc u q rest pq hpq).2
                          calc q < pq.2 := hgt
                            _ ≤ M' := by
                                rw [hM']
                                exact le_specMaxScore
                                  (List.mem_map.mpr ⟨pq, hpq, rfl⟩)
                        have hmax : specMaxScore
                            ((specEligible svc u st.bestScore
                              ((e, EdgeRule.semanticMatch d) :: rest)).map (·.2)) =
                            M' := by
                          rw [heligible]
                          simp only [List.map_cons, specMaxScore]
                          have hst := specMax_eligible_stable svc u
                            (le_of_lt hP.2) rest
                          rw [hst, ← hM', max_eq_right (le_of_lt hM'gt)]
                        have hwcons : specWinnerFrom svc u st.bestScore
                            ((e, EdgeRule.semanticMatch d) :: rest) =
                            some (p', M') := by
                          rw [specWinnerFrom, hmax, heligible]
                          simp only [specFirstAt, if_neg (ne_of_lt hM'gt)]
                          rw [specFirstAt_eligible_stable svc u
                            (le_of_lt hP.2) hM'gt rest]
                          rw [← hM'] at hfa
                          rw [hfa]
                          rfl
                        obtain ⟨f1, f2, f3⟩ := ihU.2 p' M' hw
                        constructor
                        · intro hcontr
                          rw [hwcons] at hcontr
                          exact absurd hcontr (by simp)
                        · intro p M heq
                          rw [hwcons] at heq
                          obtain ⟨rfl, rfl⟩ : p = p' ∧ M = M' := by
                            have := Option.some_inj.mp heq
                            exact ⟨(congrArg Prod.fst this).symm,
                              (congrArg Prod.snd this).symm⟩
                          exact ⟨f1, f2, f3⟩
                  · -- the head does not beat the running best
                    have hCP : ¬ (q != 0 && decide (q > svc.threshold) &&
                        decide (q > st.bestScore)) = true := by
                      intro hcond
                      simp only [Bool.and_eq_true, bne_iff_ne,
                        decide_eq_true_eq] at hcond
                      exact hP ⟨hcond.1.2, hcond.2⟩
                    have hw : specWinnerFrom svc u st.bestScore
                        ((e, EdgeRule.semanticMatch d) :: rest) =
                        specWinnerFrom svc u st.bestScore rest := by
                      simp [specWinnerFrom, specEligible, hqual, if_neg hP]
                    rw [hw]
                    have h2 : semanticScan svc u rest
                        { st with scored :=
                            st.scored ++ [⟨res.scoredCandidates, d, false⟩] } =
                        some st₂ := by
                      simpa [semanticScan, hcheck, hms, hCP] using h
                    exact ih { st with scored :=
                      st.scored ++ [⟨res.scoredCandidates, d, false⟩] } st₂ h2 hb

/-! ## Claim C6 — global winner selection across rules

Two artifacts of the code narrow the claim: `bestScore` starts at `0.0`,
and the winning guard `topScore && …` is JS truthiness, so a qualifying
score must be strictly positive (not merely above the threshold) to win.
-/

/-- C6 (counterexample): with threshold `-2`, the unique qualifying
score `0` strictly exceeds the threshold and is the global maximum, yet
no edge wins (JS truthiness discards a zero score and `bestScore` starts
at `0`) — the claim demands this score win. -/
theorem c6_counterexample :
    (evaluate fxSvcLowThr fxSmGraph "u" ⟨fxNode "n1", 0, some []⟩).map
        (fun r => r.edge) = some none ∧
    (checkSemanticMatchRule fxSvcLowThr "u" ⟨[⟨"a", false⟩]⟩).map
        (·.maxScore) = some (some (0 : Rat)) ∧
    (0 : Rat) > fxSvcLowThr.threshold := by
  exact ⟨by decide, by decide, by decide⟩

/-- C6 (amended): over the condition-filtered outgoing edges (in
edge-then-rule order), the winner is the first edge/rule whose
qualifying score is the global maximum among qualifying scores strictly
greater than both the threshold *and zero*; a score equal to the
threshold (or equal to zero, or not above the running zero floor) never
wins, and ties keep the first encountered. -/
theorem c6_winner_characterization (svc : SemanticMatchService)
    (node : Node) (graph : Graph) (world : Option World) (u : String)
    (st₂ : BestState)
    (h : semanticScan svc u
      ((getOutEdges node graph world).flatMap fun e => e.rules.map fun r => (e, r))
      ⟨0, none, none, 0, []⟩ = some st₂) :
    (specWinnerFrom svc u 0
        ((getOutEdges node graph world).flatMap fun e =>
          e.rules.map fun r => (e, r)) = none →
      st₂.bestEdge = none ∧ st₂.bestRule = none) ∧
    (∀ p M, specWinnerFrom svc u 0
        ((getOutEdges node graph world).flatMap fun e =>
          e.rules.map fun r => (e, r)) = some (p, M) →
      st₂.bestEdge = some p.1 ∧ st₂.bestRule = some p.2 ∧
        st₂.bestScore = M) := by
  obtain ⟨c1, c2⟩ := semanticScan_winner svc u
    ((getOutEdges node graph world).flatMap fun e => e.rules.map fun r => (e, r))
    ⟨0, none, none, 0, []⟩ st₂ h le_rfl
  exact ⟨fun hn => ⟨(c1 hn).1, (c1 hn).2.1⟩, c2⟩

/-- C6 (witness): a single positive candidate scoring `1` over threshold
`0` wins with score `1`. -/
theorem c6_winner_characterization_witness :
    (specWinnerFrom (SemanticMatchService.mk true 0 (fun _ _ => [1])) "u" 0
        ((getOutEdges (fxNode "n1") fxSmGraph (some [])).flatMap fun e =>
          e.rules.map fun r => (e, r)) = none →
      BestState.bestEdge ⟨1, some fxSmEdge,
          some (.semanticMatch ⟨[⟨"a", false⟩]⟩), 0,
          [⟨[⟨⟨"a", false⟩, 1, true⟩], ⟨[⟨"a", false⟩]⟩, false⟩]⟩ = none ∧
      BestState.bestRule ⟨1, some fxSmEdge,
          some (.semanticMatch ⟨[⟨"a", false⟩]⟩), 0,
          [⟨[⟨⟨"a", false⟩, 1, true⟩], ⟨[⟨"a", false⟩]⟩, false⟩]⟩ = none) ∧
    (∀ p M, specWinnerFrom (SemanticMatchService.mk true 0
          (fun _ _ => [1])) "u" 0
        ((getOutEdges (fxNode "n1") fxSmGraph (some [])).flatMap fun e =>
          e.rules.map fun r => (e, r)) = some (p, M) →
      BestState.bestEdge ⟨1, some fxSmEdge,
          some (.semanticMatch ⟨[⟨"a", false⟩]⟩), 0,
          [⟨[⟨⟨"a", false⟩, 1, true⟩], ⟨[⟨"a", false⟩]⟩, false⟩]⟩ = some p.1 ∧
      BestState.bestRule ⟨1, some fxSmEdge,
          some (.semanticMatch ⟨[⟨"a", false⟩]⟩), 0,
          [⟨[⟨⟨"a", false⟩, 1, true⟩], ⟨[⟨"a", false⟩]⟩, false⟩]⟩ = some p.2 ∧
      BestState.bestScore ⟨1, some fxSmEdge,
          some (.semanticMatch ⟨[⟨"a", false⟩]⟩), 0,
          [⟨[⟨⟨"a", false⟩, 1, true⟩], ⟨[⟨"a", false⟩]⟩, false⟩]⟩ = M) :=
  c6_winner_characterization (SemanticMatchService.mk true 0
    (fun _ _ => [1])) (fxNode "n1") fxSmGraph (some []) "u"
    ⟨1, some fxSmEdge, some (.semanticMatch ⟨[⟨"a", false⟩]⟩), 0,
      [⟨[⟨⟨"a", false⟩, 1, true⟩], ⟨[⟨"a", false⟩]⟩, false⟩]⟩
    (by decide)

/-! ## Claim C9 — serialization round trip

`serializableGraphToGraph ∘ graphToSerializableGraph`-wise the conversion
is lossless — except that a `contentId` equal to the empty string is
dropped by the JS truthiness guard `if (serializableGraph.contentId)`.
-/

/-- Wire-format fixture: anchored and plain nodes, one edge of each rule
payload, and an empty-string `contentId`. -/
def fxSG : SerializableGraph :=
  ⟨"id", some "", "nm", "s",
   [⟨"s", "t", "p", "r", some false, some ⟨1, 2⟩⟩,
    ⟨"b", "t", "p", "r", none, none⟩],
   [⟨0, 1, [.semanticMatch ⟨[⟨"a", false⟩]⟩], [⟨.add, "k", "v"⟩],
     [⟨.require, "k", "v"⟩]⟩]⟩

/-- The same fixture with a truthy `contentId`. -/
def fxSG2 : SerializableGraph := { fxSG with contentId := some "c" }

/-- C9 (counterexample): with `contentId = ""` the round trip is not the
identity — the field is dropped. -/
theorem c9_counterexample :
    (serializableGraphToGraph fxSG).bind graphToSerializableGraph ≠ some fxSG ∧
    (serializableGraphToGraph fxSG).bind graphToSerializableGraph =
      some { fxSG with contentId := none } := by
  exact ⟨by decide, by decide⟩

lemma purifyNode_serializableNodeToNode (n : SerializableNode) :
    purifyNode (serializableNodeToNode n) = n := by
  cases n with
  | mk id title prompt retryPrompt autoAdvance anchor =>
      cases anchor with
      | none => rfl
      | some a => cases a; rfl

lemma findNodeIndexGo_shift (target : Node) (l : List Node) (k : Nat) :
    findNodeIndexGo target l k = (findNodeIndexGo target l 0).map (· + k) := by
  induction l generalizing k with
  | nil => rfl
  | cons n rest ih =>
      by_cases h : n.id = target.id
      · simp [findNodeIndexGo, h]
      · simp only [findNodeIndexGo, if_neg h]
        rw [ih (k + 1), ih 1]
        cases h2 : findNodeIndexGo target rest 0 with
        | none => rfl
        | some v => simp; omega

lemma findNodeIndex_getElem (nodes : List Node)
    (hnd : (nodes.map (·.id)).Nodup) (i : Nat) (hi : i < nodes.length) :
    findNodeIndex nodes nodes[i] = some i := by
  induction nodes generalizing i with
  | nil => simp at hi
  | cons n rest ih =>
      cases i with
      | zero => simp [findNodeIndex, findNodeIndexGo]
      | succ j =>
          have hj : j < rest.length := by simpa using hi
          rw [List.map_cons] at hnd
          obtain ⟨hnotin, hndrest⟩ := List.nodup_cons.mp hnd
          have hne : ¬ n.id = ((n :: rest)[j + 1]).id := by
            intro heq
            apply hnotin
            rw [heq]
            simp only [List.getElem_cons_succ]
            exact List.mem_map.mpr ⟨rest[j], List.getElem_mem hj, rfl⟩
          have hrest := ih hndrest j hj
          simp only [findNodeIndex, findNodeIndexGo, if_neg hne]
          rw [findNodeIndexGo_shift]
          simp only [List.getElem_cons_succ]
          rw [show findNodeIndexGo rest[j] rest 0 = some j from hrest]
          rfl

/-- Round trip of the edge lists: in-bounds indices deserialize, and —
with duplicate-free node ids — reserializing recovers exactly the
original indexed edges. -/
lemma edge_lists_roundtrip (nodes : List Node)
    (hnd : (nodes.map (·.id)).Nodup) :
    ∀ edges : List SerializableEdge,
      (∀ e ∈ edges, e.sourceIndex < nodes.length ∧
        e.targetIndex < nodes.length) →
      ∃ l, serializableGraphToGraph.go nodes edges = some l ∧
        ∀ g : Graph, g.nodes = nodes →
          graphToSerializableGraph.go g l = some edges := by
  intro edges
  induction edges with
  | nil => intro _; exact ⟨[], rfl, fun g _ => rfl⟩
  | cons e rest ih =>
      intro hb
      obtain ⟨hsi, hti⟩ := hb e (List.mem_cons_self _ _)
      obtain ⟨l, h1, h2⟩ := ih fun e2 he2 => hb e2 (List.mem_cons_of_mem _ he2)
      refine ⟨Edge.mk nodes[e.sourceIndex] nodes[e.targetIndex] e.rules
          (some e.conditions) (some e.mutations) :: l, ?_, ?_⟩
      · simp only [serializableGraphToGraph.go, List.getElem?_eq_getElem hsi,
          List.getElem?_eq_getElem hti, h1]
        rfl
      · intro g hg
        have hfs : findNodeIndex g.nodes nodes[e.sourceIndex] =
            some e.sourceIndex := by
          rw [hg]; exact findNodeIndex_getElem nodes hnd _ hsi
        have hft : findNodeIndex g.nodes nodes[e.targetIndex] =
            some e.targetIndex := by
          rw [hg]; exact findNodeIndex_getElem nodes hnd _ hti
        simp only [graphToSerializableGraph.go, hfs, hft, h2 g hg]
        rfl

/-- C9 (amended): for every serializable graph satisfying the data-model
invariants — duplicate-free node ids and in-range edge indices — and
whose `contentId`, when present, is not the empty string, deserializing
and reserializing yields the graph back exactly (node order, edge order,
indices, anchors and all other fields preserved).  An empty-string
`contentId` is the one wire field the truthiness guards drop. -/
theorem c9_round_trip (sg : SerializableGraph)
    (hnd : (sg.nodes.map (·.id)).Nodup)
    (hidx : ∀ e ∈ sg.edges, e.sourceIndex < sg.nodes.length ∧
      e.targetIndex < sg.nodes.length)
    (hcid : sg.contentId ≠ some "") :
    (serializableGraphToGraph sg).bind graphToSerializableGraph = some sg := by
  have hids : (sg.nodes.map serializableNodeToNode).map (·.id) =
      sg.nodes.map (·.id) := by
    rw [List.map_map]; rfl
  have hnd2 : ((sg.nodes.map serializableNodeToNode).map (·.id)).Nodup := by
    rw [hids]; exact hnd
  obtain ⟨l, hgo1, hgo2⟩ := edge_lists_roundtrip
    (sg.nodes.map serializableNodeToNode) hnd2 sg.edges
    (by simpa using hidx)
  have hcid2 : (sg.contentId.bind fun c => if c = "" then none else some c) =
      sg.contentId := by
    cases hc : sg.contentId with
    | none => rfl
    | some c =>
        have hcne : ¬ c = "" := fun h => hcid (by rw [hc, h])
        simp [Option.bind, hcne]
  have h1 : serializableGraphToGraph sg = some
      { id := sg.id, contentId := sg.contentId,
        name := sg.name, start := sg.start,
        nodes := sg.nodes.map serializableNodeToNode, edges := l } := by
    rw [serializableGraphToGraph, hgo1]
    simp [hcid2]
  rw [h1]
  have hpn : (sg.nodes.map serializableNodeToNode).map purifyNode = sg.nodes := by
    rw [List.map_map]
    have hcomp : purifyNode ∘ serializableNodeToNode = id := by
      funext n; exact purifyNode_serializableNodeToNode n
    rw [hcomp, List.map_id]
  show graphToSerializableGraph
      { id := sg.id, contentId := sg.contentId, name := sg.name,
        start := sg.start, nodes := sg.nodes.map serializableNodeToNode,
        edges := l } = some sg
  simp only [graphToSerializableGraph]
  have hg2 := hgo2 ⟨sg.id, sg.contentId, sg.name, sg.start,
    sg.nodes.map serializableNodeToNode, l⟩ rfl
  rw [hg2]
  simp [hpn, hcid2]

/-- C9 (witness): the round trip is the identity on the truthy fixture. -/
theorem c9_round_trip_witness :
    (serializableGraphToGraph fxSG2).bind graphToSerializableGraph =
      some fxSG2 :=
  c9_round_trip fxSG2 (by decide) (by decide) (by decide)

/-! ## Spec-side graph reachability (for C8)

Formalizations of the spec's words for the layout claim: steps along
edges by node id, reachability from the start id, reachable cycles, and
walks of a given length.
-/

/-- One step along an edge of the graph, on node ids. -/
def edgeStep (graph : Graph) (a b : String) : Prop :=
  ∃ e ∈ graph.edges, e.source.id = a ∧ e.target.id = b

/-- Reachability from the start id. -/
def reachableFromStart (graph : Graph) (v : String) : Prop :=
  Relation.ReflTransGen (edgeStep graph) graph.start v

/-- Some node reachable from the start lies on a (nontrivial) cycle. -/
def cycleReachableFromStart (graph : Graph) : Prop :=
  ∃ v, reachableFromStart graph v ∧ Relation.TransGen (edgeStep graph) v v

/-- Walks of a given length between two ids. -/
def walkN (graph : Graph) : Nat → String → String → Prop
  | 0, a, b => a = b
  | n + 1, a, b => ∃ c, edgeStep graph a c ∧ walkN graph n c b

lemma walkN_succ_back (graph : Graph) :
    ∀ (n : Nat) (a b : String),
    walkN graph (n + 1) a b ↔ ∃ c, walkN graph n a c ∧ edgeStep graph c b := by
  intro n
  induction n with
  | zero =>
      intro a b
      constructor
      · rintro ⟨c, hac, hcb⟩
        exact ⟨a, rfl, by rwa [show c = b from hcb] at hac⟩
      · rintro ⟨c, hac, hcb⟩
        exact ⟨b, by rwa [show a = c from hac], rfl⟩
  | succ m ih =>
      intro a b
      constructor
      · rintro ⟨c, hac, hcb⟩
        obtain ⟨d, hcd, hdb⟩ := (ih c b).mp hcb
        exact ⟨d, ⟨c, hac, hcd⟩, hdb⟩
      · rintro ⟨c, ⟨d, had, hdc⟩, hcb⟩
        exact ⟨d, had, (ih d b).mpr ⟨c, hdc, hcb⟩⟩

lemma reachable_iff_walk (graph : Graph) (v : String) :
    reachableFromStart graph v ↔ ∃ n, walkN graph n graph.start v := by
  constructor
  · intro h
    induction h with
    | refl => exact ⟨0, rfl⟩
    | tail _ hstep ih =>
        obtain ⟨n, hw⟩ := ih
        exact ⟨n + 1, (walkN_succ_back graph n _ _).mpr ⟨_, hw, hstep⟩⟩
  · rintro ⟨n, hw⟩
    induction n generalizing v with
    | zero => exact hw ▸ Relation.ReflTransGen.refl
    | succ m ih =>
        obtain ⟨c, hc, hstep⟩ := (walkN_succ_back graph m _ _).mp hw
        exact Relation.ReflTransGen.tail (ih c hc) hstep

/-! ### Counting helpers for the layout invariant -/

/-- Occurrences of a node id in the queue. -/
def cntQ (v : String) (q : List NodeDepth) : Nat :=
  q.countP fun nd => nd.node.id == v

/-- The seeded in-degree of an id: 1 for the start plus one per in-edge. -/
def indeg0 (graph : Graph) (s v : String) : Nat :=
  (if v = s then 1 else 0) + graph.edges.countP fun e => e.target.id == v

/-- How many times an id has been enqueued so far: the initial seed plus
one per in-edge whose source has finished. -/
def enqCnt (graph : Graph) (s : String) (fin : List String) (v : String) : Nat :=
  (if v = s then 1 else 0) +
    graph.edges.countP fun e => decide (e.source.id ∈ fin) && e.target.id == v

lemma countP_le_countP {α : Type} (l : List α) (p q : α → Bool)
    (h : ∀ x ∈ l, p x = true → q x = true) : l.countP p ≤ l.countP q := by
  induction l with
  | nil => simp
  | cons a rest ih =>
      have hrest := ih fun x hx => h x (List.mem_cons_of_mem _ hx)
      by_cases hp : p a = true
      · rw [List.countP_cons_of_pos _ _ hp,
          List.countP_cons_of_pos _ _ (h a (List.mem_cons_self _ _) hp)]
        omega
      · rw [List.countP_cons_of_neg _ _ (by simpa using hp)]
        by_cases hq : q a = true
        · rw [List.countP_cons_of_pos _ _ hq]; omega
        · rw [List.countP_cons_of_neg _ _ (by simpa using hq)]; exact hrest

lemma countP_pointwise {α : Type} (l : List α) (p q : α → Bool)
    (h : l.countP q ≤ l.countP fun x => p x && q x) :
    ∀ x ∈ l, q x = true → p x = true := by
  induction l with
  | nil => intro x hx; cases hx
  | cons a rest ih =>
      intro x hx hq
      have hle : rest.countP (fun x => p x && q x) ≤ rest.countP q :=
        countP_le_countP rest _ _ fun y _ hy => by
          rw [Bool.and_eq_true] at hy
          exact hy.2
      rw [List.countP_cons, List.countP_cons] at h
      rcases List.mem_cons.mp hx with rfl | hxr
      · by_contra hp
        have hpb : p x = false := Bool.eq_false_iff.mpr hp
        simp [hq, hpb] at h
        omega
      · apply ih ?_ x hxr hq
        by_cases hqa : q a = true <;> by_cases hpa : p a = true <;>
          simp [hqa, hpa] at h <;> omega

/-! ### JsMap lemmas for the layout proof -/

lemma JsMap.get_set_self {α : Type} (m : JsMap α) (k : String) (v : α) :
    (m.set k v).get k = some v := by
  induction m with
  | nil => simp [JsMap.set, JsMap.get]
  | cons p rest ih =>
      obtain ⟨k2, v2⟩ := p
      by_cases h : k2 = k
      · simp [JsMap.set, JsMap.get, h]
      · simp [JsMap.set, JsMap.get, h, ih]

lemma JsMap.get_set_other {α : Type} (m : JsMap α) (k k2 : String) (v : α)
    (h : k ≠ k2) : (m.set k v).get k2 = m.get k2 := by
  induction m with
  | nil => simp [JsMap.set, JsMap.get, h]
  | cons p rest ih =>
      obtain ⟨k3, v3⟩ := p
      by_cases h3 : k3 = k
      · subst h3
        simp [JsMap.set, JsMap.get, h]
      · by_cases h2 : k3 = k2
        · subst h2
          simp [JsMap.set, JsMap.get, h3]
        · simp [JsMap.set, JsMap.get, h3, h2, ih]

lemma JsMap.keys_set {α : Type} (m : JsMap α) (k : String) (v : α) :
    ((m.set k v).map (·.1)) =
      if (m.get k).isSome then m.map (·.1) else m.map (·.1) ++ [k] := by
  induction m with
  | nil => simp [JsMap.set, JsMap.get]
  | cons p rest ih =>
      obtain ⟨k2, v2⟩ := p
      by_cases h : k2 = k
      · simp [JsMap.set, JsMap.get, h]
      · simp only [JsMap.set, JsMap.get, if_neg h, List.map_cons, ih]
        by_cases hs : (JsMap.get rest k).isSome <;>
          simp [hs, fun hh : k2 = k => h hh]

lemma JsMap.isSome_of_mem_keys {α : Type} (m : JsMap α) (k : String)
    (h : k ∈ m.map (·.1)) : (m.get k).isSome := by
  induction m with
  | nil => cases h
  | cons p rest ih =>
      obtain ⟨k2, v2⟩ := p
      by_cases h2 : k2 = k
      · simp [JsMap.get, h2]
      · simp only [JsMap.get, if_neg h2]
        rcases List.mem_cons.mp h with heq | hm
        · exact absurd heq.symm h2
        · exact ih hm

lemma JsMap.get_isSome_set {α : Type} (m : JsMap α) (k k2 : String) (v : α) :
    ((m.set k v).get k2).isSome ↔ ((m.get k2).isSome ∨ k2 = k) := by
  by_cases h : k = k2
  · subst h
    simp [JsMap.get_set_self]
  · have hne : ¬ k2 = k := fun hh => h hh.symm
    rw [JsMap.get_set_other m k k2 v h]
    simp [hne]

lemma JsMap.keys_nodup_set {α : Type} (m : JsMap α) (k : String) (v : α)
    (h : (m.map (·.1)).Nodup) : ((m.set k v).map (·.1)).Nodup := by
  rw [JsMap.keys_set]
  by_cases hs : (m.get k).isSome
  · simpa [hs] using h
  · have hk : k ∉ m.map (·.1) := fun hmem =>
      absurd (JsMap.isSome_of_mem_keys m k hmem) (by simpa using hs)
    simp [hs, List.nodup_append, hk, h]

lemma JsMap.get_eq_some_iff_mem {α : Type} (m : JsMap α)
    (hnd : (m.map (·.1)).Nodup) (k : String) (v : α) :
    m.get k = some v ↔ (k, v) ∈ m := by
  induction m with
  | nil => simp [JsMap.get]
  | cons p rest ih =>
      obtain ⟨k2, v2⟩ := p
      rw [List.map_cons] at hnd
      obtain ⟨hk2, hndr⟩ := List.nodup_cons.mp hnd
      by_cases h : k2 = k
      · subst h
        simp only [JsMap.get, if_pos rfl, List.mem_cons]
        constructor
        · intro hv
          have hv2 : v2 = v := Option.some_inj.mp hv
          exact Or.inl (by rw [hv2])
        · rintro (heq | hm)
          · injection heq with _ hv
            simp [hv]
          · exact absurd (List.mem_map.mpr ⟨(k2, v), hm, rfl⟩) hk2
      · simp only [JsMap.get, if_neg h, List.mem_cons]
        rw [ih hndr]
        constructor
        · exact Or.inr
        · rintro (heq | hm)
          · exact absurd (congrArg Prod.fst heq).symm h
          · exact hm

/-- `getOutEdges` with no world: just the source-id filter. -/
lemma getOutEdges_none (n : Node) (graph : Graph) :
    getOutEdges n graph none =
      graph.edges.filter fun e => e.source.id == n.id := by
  unfold getOutEdges
  congr 1
  funext e
  cases e.conditions <;> simp

/-- The characterization of the seeded in-degree map. -/
lemma initialInDegree_get (s : Node) (graph : Graph) (v : String) :
    (initialInDegree s graph).get v =
      if v = s.id ∨ graph.edges.countP (fun e => e.target.id == v) ≠ 0 then
        some (indeg0 graph s.id v)
      else none := by
  have hfold : ∀ (edges : List Edge) (m : JsMap Nat),
      (edges.foldl (fun m e =>
        match m.get e.target.id with
        | some k => m.set e.target.id (k + 1)
        | none => m.set e.target.id 1) m).get v =
      match m.get v with
      | some k => some (k + edges.countP fun e => e.target.id == v)
      | none =>
          if edges.countP (fun e => e.target.id == v) = 0 then none
          else some (edges.countP fun e => e.target.id == v) := by
    intro edges
    induction edges with
    | nil =>
        intro m
        cases hm : m.get v <;> simp [hm]
    | cons e rest ih =>
        intro m
        rw [List.foldl_cons, List.countP_cons]
        by_cases hector : e.target.id = v
        · have hb : (e.target.id == v) = true := by simp [hector]
          cases hm : m.get v with
          | some k =>
              rw [show (match m.get e.target.id with
                  | some k => m.set e.target.id (k + 1)
                  | none => m.set e.target.id 1) =
                  m.set v (k + 1) by rw [hector, hm]]
              rw [ih]
              rw [JsMap.get_set_self]
              simp [hb]
              omega
          | none =>
              rw [show (match m.get e.target.id with
                  | some k => m.set e.target.id (k + 1)
                  | none => m.set e.target.id 1) =
                  m.set v 1 by rw [hector, hm]]
              rw [ih]
              rw [JsMap.get_set_self]
              simp [hb]
              omega
        · have hb : (e.target.id == v) = false := by simp [hector]
          have hget : (match m.get e.target.id with
              | some k => m.set e.target.id (k + 1)
              | none => m.set e.target.id 1).get v = m.get v := by
            cases hm : m.get e.target.id with
            | some k => simp [JsMap.get_set_other _ _ _ _ hector]
            | none => simp [JsMap.get_set_other _ _ _ _ hector]
          rw [ih, hget]
          simp [hb]
  unfold initialInDegree
  rw [hfold]
  by_cases hv : v = s.id
  · subst hv
    rw [JsMap.get_set_self]
    simp [indeg0]
  · rw [JsMap.get_set_other _ _ _ _ fun h => hv h.symm]
    simp only [JsMap.get]
    by_cases hz : graph.edges.countP (fun e => e.target.id == v) = 0 <;>
      simp [hz, hv, indeg0]

lemma countP_congr2 {α : Type} (l : List α) (p q : α → Bool)
    (h : ∀ x ∈ l, p x = q x) : l.countP p = l.countP q := by
  induction l with
  | nil => simp
  | cons a rest ih =>
      rw [List.countP_cons, List.countP_cons, h a (List.mem_cons_self _ _),
        ih fun x hx => h x (List.mem_cons_of_mem _ hx)]

lemma countP_split {α : Type} (l : List α) (p q : α → Bool) :
    l.countP p = l.countP (fun x => p x && q x) +
      l.countP (fun x => p x && !q x) := by
  induction l with
  | nil => simp
  | cons a rest ih =>
      rw [List.countP_cons, List.countP_cons, List.countP_cons]
      by_cases hp : p a = true <;> by_cases hq : q a = true <;>
        simp [hp, hq] <;> omega

lemma beq_false_of_ne {a b : String} (h : ¬ a = b) : (a == b) = false := by
  simpa using h

lemma cntQ_cons (v : String) (nd : NodeDepth) (q : List NodeDepth) :
    cntQ v (nd :: q) = cntQ v q + if nd.node.id = v then 1 else 0 := by
  by_cases h : nd.node.id = v <;> simp [cntQ, List.countP_cons, h]

lemma cntQ_append (v : String) (q1 q2 : List NodeDepth) :
    cntQ v (q1 ++ q2) = cntQ v q1 + cntQ v q2 := by
  simp [cntQ, List.countP_append]

lemma cntQ_enqueued (graph : Graph) (n : Node) (d : Nat) (v : String) :
    cntQ v ((getOutEdges n graph none).map fun e =>
      (⟨e.target, d⟩ : NodeDepth)) =
      graph.edges.countP fun e => e.source.id == n.id && e.target.id == v := by
  rw [getOutEdges_none, cntQ, List.countP_map, List.countP_filter]
  exact countP_congr2 _ _ _ fun e _ => Bool.and_comm _ _

lemma enqCnt_append_fin (graph : Graph) (s : String) (fin : List String)
    (v : String) (hv : v ∉ fin) (w : String) :
    enqCnt graph s (fin ++ [v]) w =
      enqCnt graph s fin w +
        graph.edges.countP fun e => e.source.id == v && e.target.id == w := by
  unfold enqCnt
  rw [countP_split graph.edges
    (fun e => decide (e.source.id ∈ fin ++ [v]) && e.target.id == w)
    (fun e => e.source.id == v)]
  have h1 : graph.edges.countP
      (fun e => (decide (e.source.id ∈ fin ++ [v]) && e.target.id == w) &&
        e.source.id == v) =
      graph.edges.countP (fun e => e.source.id == v && e.target.id == w) :=
    countP_congr2 _ _ _ fun e _ => by
      by_cases hs : e.source.id = v <;> by_cases ht : e.target.id = w
      · simp [hs, ht, List.mem_append]
      · simp [hs, beq_false_of_ne ht, List.mem_append]
      · simp [beq_false_of_ne hs, ht]
      · simp [beq_false_of_ne hs, beq_false_of_ne ht]
  have h2 : graph.edges.countP
      (fun e => (decide (e.source.id ∈ fin ++ [v]) && e.target.id == w) &&
        !(e.source.id == v)) =
      graph.edges.countP
        (fun e => decide (e.source.id ∈ fin) && e.target.id == w) :=
    countP_congr2 _ _ _ fun e _ => by
      by_cases hs : e.source.id = v
      · simp [hs, hv]
      · by_cases hf : e.source.id ∈ fin <;>
          by_cases ht : e.target.id = w <;>
          simp [beq_false_of_ne hs, hf, ht, List.mem_append, hs]
  rw [h1, h2]
  omega

lemma countP_unfin_append (graph : Graph) (fin : List String) (v : String)
    (hv : v ∉ fin) :
    graph.edges.countP (fun e => !decide (e.source.id ∈ fin)) =
      graph.edges.countP (fun e => !decide (e.source.id ∈ fin ++ [v])) +
        graph.edges.countP (fun e => e.source.id == v) := by
  rw [countP_split graph.edges (fun e => !decide (e.source.id ∈ fin))
    (fun e => e.source.id == v)]
  have h1 : graph.edges.countP
      (fun e => !decide (e.source.id ∈ fin) && e.source.id == v) =
      graph.edges.countP (fun e => e.source.id == v) :=
    countP_congr2 _ _ _ fun e _ => by
      by_cases hs : e.source.id = v
      · simp [hs, hv]
      · simp [beq_false_of_ne hs, hs]
  have h2 : graph.edges.countP
      (fun e => !decide (e.source.id ∈ fin) && !(e.source.id == v)) =
      graph.edges.countP (fun e => !decide (e.source.id ∈ fin ++ [v])) :=
    countP_congr2 _ _ _ fun e _ => by
      by_cases hs : e.source.id = v <;>
        by_cases hf : e.source.id ∈ fin <;>
        simp [beq_false_of_ne, hs, hf, List.mem_append]
  rw [h1, h2]
  omega

lemma sorted_map_const {α : Type} (l : List α) (c : Nat) :
    ((l.map fun _ => c).Sorted (· ≤ ·)) := by
  induction l with
  | nil => simp
  | cons a rest ih =>
      rw [List.map_cons, List.sorted_cons]
      exact ⟨fun b hb => by
        rcases List.mem_map.mp hb with ⟨x, -, rfl⟩; exact le_rfl, ih⟩

/-- The inductive invariant of the layout traversal, for a graph with
start node `s`.  `cntQ`/`indeg0`/`enqCnt` do the in-degree accounting:
every id's queue multiplicity plus consumed pops balances its enqueues. -/
structure DagInv (graph : Graph) (s : Node) (queue : List NodeDepth)
    (st : DagState) : Prop where
  keysSeeded : ∀ v, (st.inDegree.get v).isSome ↔
    (v = s.id ∨ graph.edges.countP (fun e => e.target.id == v) ≠ 0)
  pos : ∀ v k, st.inDegree.get v = some k → 1 ≤ k
  finOne : ∀ v ∈ st.finished, st.inDegree.get v = some 1
  count : ∀ v, cntQ v queue + indeg0 graph s.id v +
      (if v ∈ st.finished then 1 else 0) =
    enqCnt graph s.id st.finished v + (st.inDegree.get v).getD 0
  queueNodes : ∀ nd ∈ queue, nd.node ∈ graph.nodes
  queueKeys : ∀ nd ∈ queue, (st.inDegree.get nd.node.id).isSome
  queueReach : ∀ nd ∈ queue,
    Relation.ReflTransGen (edgeStep graph) s.id nd.node.id
  queueWalk : ∀ nd ∈ queue, walkN graph nd.depth s.id nd.node.id
  finSub : ∀ v ∈ st.finished, v ∈ graph.nodes.map (·.id)
  finNodup : st.finished.Nodup
  finReach : ∀ v ∈ st.finished,
    Relation.ReflTransGen (edgeStep graph) s.id v
  finPred : ∀ v ∈ st.finished, ∀ e ∈ graph.edges, e.target.id = v →
    e.source.id ∈ st.finished
  finCnt : ∀ v ∈ st.finished, cntQ v queue = 0
  sortedQ : (queue.map (·.depth)).Sorted (· ≤ ·)
  nearQ : ∀ a ∈ queue, ∀ b ∈ queue, b.depth ≤ a.depth + 1
  depthLe : ∀ v d, st.depthMap.get v = some d → ∀ nd ∈ queue, d ≤ nd.depth
  depthWalk : ∀ v d, st.depthMap.get v = some d → walkN graph d s.id v
  finDepth : ∀ v ∈ st.finished, (st.depthMap.get v).isSome
  edgeRec : ∀ e ∈ graph.edges, e.source.id ∈ st.finished →
    (∃ nd ∈ queue, nd.node.id = e.target.id ∧ ∃ ds,
      st.depthMap.get e.source.id = some ds ∧ ds + 1 ≤ nd.depth) ∨
    (∃ ds dt, st.depthMap.get e.source.id = some ds ∧
      st.depthMap.get e.target.id = some dt ∧ ds + 1 ≤ dt)
  dmNodup : (st.depthMap.map (·.1)).Nodup
  dmMax : ∀ v d, st.depthMap.get v = some d → d ≤ st.maxDepth
  dmSub : ∀ v d, st.depthMap.get v = some d → v ∈ graph.nodes.map (·.id)

/-- The invariant holds when the traversal starts. -/
lemma dagInv_init (graph : Graph) (s : Node) (hs : s ∈ graph.nodes) :
    DagInv graph s [⟨s, 0⟩]
      { inDegree := initialInDegree s graph, finished := [],
        depthMap := [], maxDepth := 0 } := by
  have hget : ∀ v, (initialInDegree s graph).get v =
      if v = s.id ∨ graph.edges.countP (fun e => e.target.id == v) ≠ 0 then
        some (indeg0 graph s.id v)
      else none := initialInDegree_get s graph
  refine
    { keysSeeded := ?_, pos := ?_, finOne := ?_, count := ?_,
      queueNodes := ?_, queueKeys := ?_, queueReach := ?_, queueWalk := ?_,
      finSub := ?_, finNodup := ?_, finReach := ?_, finPred := ?_,
      finCnt := ?_, sortedQ := ?_, nearQ := ?_, depthLe := ?_,
      depthWalk := ?_, finDepth := ?_, edgeRec := ?_, dmNodup := ?_,
      dmMax := ?_, dmSub := ?_ }
  · intro v
    rw [hget v]
    by_cases hc : v = s.id ∨ graph.edges.countP (fun e => e.target.id == v) ≠ 0 <;>
      simp [hc]
  · intro v k hk
    rw [hget v] at hk
    by_cases hc : v = s.id ∨ graph.edges.countP (fun e => e.target.id == v) ≠ 0
    · rw [if_pos hc] at hk
      have : indeg0 graph s.id v = k := Option.some_inj.mp hk
      rcases hc with hc | hc
      · subst this; simp [indeg0, hc]
      · subst this; simp only [indeg0]; omega
    · rw [if_neg hc] at hk; cases hk
  · intro v hv; cases hv
  · intro v
    rw [hget v]
    have hcnt : cntQ v [(⟨s, 0⟩ : NodeDepth)] = if v = s.id then 1 else 0 := by
      by_cases hv : v = s.id
      · simp [cntQ, List.countP_cons, hv]
      · have hb : (s.id == v) = false := by
          simp only [beq_eq_false_iff_ne, ne_eq]
          exact fun h => hv h.symm
        simp [cntQ, List.countP_cons, hb, hv]
    by_cases hc : v = s.id ∨ graph.edges.countP (fun e => e.target.id == v) ≠ 0
    · rw [if_pos hc]
      simp only [List.mem_nil_iff, if_false, Option.getD_some]
      rw [hcnt]
      simp only [enqCnt, indeg0]
      have : graph.edges.countP
          (fun e => decide (e.source.id ∈ ([] : List String)) &&
            e.target.id == v) = 0 := by
        simp [List.countP_eq_zero]
      rw [this]
      by_cases hv : v = s.id <;> simp [hv]
    · rw [if_neg hc]
      push_neg at hc
      obtain ⟨hv, hz⟩ := hc
      rw [hcnt, if_neg hv]
      simp only [List.mem_nil_iff, if_false, Option.getD_none]
      simp only [enqCnt, indeg0, if_neg hv]
      have : graph.edges.countP
          (fun e => decide (e.source.id ∈ ([] : List String)) &&
            e.target.id == v) = 0 := by
        simp [List.countP_eq_zero]
      omega
  · intro nd hnd
    rw [List.mem_singleton.mp hnd]
    exact hs
  · intro nd hnd
    rw [List.mem_singleton.mp hnd]
    rw [hget]
    simp
  · intro nd hnd
    rw [List.mem_singleton.mp hnd]
  · intro nd hnd
    rw [List.mem_singleton.mp hnd]
    exact rfl
  · intro v hv; cases hv
  · exact List.nodup_nil
  · intro v hv; cases hv
  · intro v hv; cases hv
  · intro v hv; cases hv
  · simp
  · intro a ha b hb
    rw [List.mem_singleton.mp ha, List.mem_singleton.mp hb]
    omega
  · intro v d hvd; cases hvd
  · intro v d hvd; cases hvd
  · intro v hv; cases hv
  · intro e he hsrc; cases hsrc
  · exact List.nodup_nil
  · intro v d hvd; cases hvd
  · intro v d hvd; cases hvd

/-- One pop of the traversal preserves the invariant, and consumes
exactly one unit of the potential `|queue| + #{edges from unfinished
sources}`. -/
lemma dagStep_inv (graph : Graph) (s : Node)
    (hclosed : ∀ e ∈ graph.edges, e.source ∈ graph.nodes ∧ e.target ∈ graph.nodes)
    (cur : NodeDepth) (rest : List NodeDepth) (st : DagState)
    (inv : DagInv graph s (cur :: rest) st) :
    ∃ q2 st2, dagStep graph cur rest st = some (q2, st2) ∧
      DagInv graph s q2 st2 ∧
      q2.length + graph.edges.countP
          (fun e => !decide (e.source.id ∈ st2.finished)) + 1 =
        (cur :: rest).length + graph.edges.countP
          (fun e => !decide (e.source.id ∈ st.finished)) := by
  obtain ⟨rem, hrem⟩ := Option.isSome_iff_exists.mp
    (inv.queueKeys cur (List.mem_cons_self _ _))
  have hvnotfin : cur.node.id ∉ st.finished := by
    intro hfin
    have h0 := inv.finCnt _ hfin
    rw [cntQ_cons] at h0
    simp at h0
  have hsortcons := inv.sortedQ
  rw [List.map_cons, List.sorted_cons] at hsortcons
  obtain ⟨hheadle, hsortrest⟩ := hsortcons
  have hrestge : ∀ nd ∈ rest, cur.depth ≤ nd.depth := fun nd hnd =>
    hheadle _ (List.mem_map_of_mem _ hnd)
  have hrestle : ∀ nd ∈ rest, nd.depth ≤ cur.depth + 1 := fun nd hnd =>
    inv.nearQ cur (List.mem_cons_self _ _) nd (List.mem_cons_of_mem _ hnd)
  have hdmle : ∀ w dw, st.depthMap.get w = some dw → dw ≤ cur.depth :=
    fun w dw h => inv.depthLe w dw h cur (List.mem_cons_self _ _)
  by_cases hrem1 : rem = 1
  · -- finish: the node's last pending in-degree unit
    subst hrem1
    have hcountv := inv.count cur.node.id
    rw [cntQ_cons, if_pos rfl, hrem, if_neg hvnotfin] at hcountv
    have hle : enqCnt graph s.id st.finished cur.node.id ≤
        indeg0 graph s.id cur.node.id := by
      unfold enqCnt indeg0
      have := countP_le_countP graph.edges
        (fun e => decide (e.source.id ∈ st.finished) &&
          e.target.id == cur.node.id)
        (fun e => e.target.id == cur.node.id)
        (fun x _ h => by rw [Bool.and_eq_true] at h; exact h.2)
      omega
    have hcv : cntQ cur.node.id rest = 0 := by
      simp only [Option.getD_some] at hcountv
      omega
    have heq : enqCnt graph s.id st.finished cur.node.id =
        indeg0 graph s.id cur.node.id := by
      simp only [Option.getD_some] at hcountv
      omega
    have hpred : ∀ e ∈ graph.edges, e.target.id = cur.node.id →
        e.source.id ∈ st.finished := by
      intro e he ht
      have hcle : graph.edges.countP (fun e => e.target.id == cur.node.id) ≤
          graph.edges.countP (fun e => decide (e.source.id ∈ st.finished) &&
            e.target.id == cur.node.id) := by
        unfold enqCnt indeg0 at heq
        omega
      have := countP_pointwise graph.edges
        (fun e => decide (e.source.id ∈ st.finished))
        (fun e => e.target.id == cur.node.id) hcle e he (by simp [ht])
      simpa using this
    have hnoself : graph.edges.countP
        (fun e => e.source.id == cur.node.id &&
          e.target.id == cur.node.id) = 0 := by
      rw [List.countP_eq_zero]
      intro e he hb
      rw [Bool.and_eq_true] at hb
      have hsrc : e.source.id = cur.node.id := by simpa using hb.1
      have htgt : e.target.id = cur.node.id := by simpa using hb.2
      exact hvnotfin (hsrc ▸ hpred e he htgt)
    have hstep : dagStep graph cur rest st = some
        (rest ++ (getOutEdges cur.node graph none).map
            (fun e => ⟨e.target, cur.depth + 1⟩),
         { inDegree := st.inDegree,
           finished := st.finished ++ [cur.node.id],
           depthMap := st.depthMap.set cur.node.id cur.depth,
           maxDepth := max st.maxDepth cur.depth }) := by
      simp [dagStep, hrem, setAdd, hvnotfin]
    refine ⟨_, _, hstep, ?_, ?_⟩
    · have henqmem : ∀ nd ∈ (getOutEdges cur.node graph none).map
          (fun e => (⟨e.target, cur.depth + 1⟩ : NodeDepth)),
          ∃ e ∈ graph.edges, e.source.id = cur.node.id ∧
            nd = ⟨e.target, cur.depth + 1⟩ := by
        intro nd hnd
        rcases List.mem_map.mp hnd with ⟨e, he, rfl⟩
        rw [getOutEdges_none, List.mem_filter] at he
        exact ⟨e, he.1, by simpa using he.2, rfl⟩
      refine
        { keysSeeded := inv.keysSeeded, pos := inv.pos, finOne := ?_,
          count := ?_, queueNodes := ?_, queueKeys := ?_, queueReach := ?_,
          queueWalk := ?_, finSub := ?_, finNodup := ?_, finReach := ?_,
          finPred := ?_, finCnt := ?_, sortedQ := ?_, nearQ := ?_,
          depthLe := ?_, depthWalk := ?_, finDepth := ?_, edgeRec := ?_,
          dmNodup := ?_, dmMax := ?_, dmSub := ?_ }
      · intro w hw
        rcases List.mem_append.mp hw with hw | hw
        · exact inv.finOne w hw
        · rw [List.mem_singleton.mp hw]
          exact hrem
      · intro w
        dsimp only
        rw [cntQ_append, cntQ_enqueued,
          enqCnt_append_fin graph s.id st.finished _ hvnotfin]
        by_cases hw : w = cur.node.id
        · subst hw
          rw [hcv, hnoself, hrem]
          have hwin : cur.node.id ∈ st.finished ++ [cur.node.id] := by simp
          rw [if_pos hwin]
          simp only [Option.getD_some] at hcountv ⊢
          omega
        · have hcnthead : cntQ w (cur :: rest) = cntQ w rest := by
            rw [cntQ_cons, if_neg (fun h => hw h.symm)]
            omega
          have hc := inv.count w
          rw [hcnthead] at hc
          have hfb : (if w ∈ st.finished ++ [cur.node.id] then 1 else 0) =
              (if w ∈ st.finished then 1 else 0) := by
            by_cases hwf : w ∈ st.finished
            · rw [if_pos hwf, if_pos (List.mem_append_left _ hwf)]
            · rw [if_neg hwf, if_neg (fun hmem => by
                rcases List.mem_append.mp hmem with h | h
                · exact hwf h
                · exact hw (List.mem_singleton.mp h))]
          rw [hfb]
          omega
      · intro nd hnd
        rcases List.mem_append.mp hnd with hnd | hnd
        · exact inv.queueNodes nd (List.mem_cons_of_mem _ hnd)
        · obtain ⟨e, he, _, rfl⟩ := henqmem nd hnd
          exact (hclosed e he).2
      · intro nd hnd
        rcases List.mem_append.mp hnd with hnd | hnd
        · exact inv.queueKeys nd (List.mem_cons_of_mem _ hnd)
        · obtain ⟨e, he, _, rfl⟩ := henqmem nd hnd
          dsimp only
          rw [(inv.keysSeeded _)]
          refine Or.inr ?_
          have : 0 < graph.edges.countP fun e2 => e2.target.id == e.target.id :=
            List.countP_pos_iff.mpr ⟨e, he, by simp⟩
          omega
      · intro nd hnd
        rcases List.mem_append.mp hnd with hnd | hnd
        · exact inv.queueReach nd (List.mem_cons_of_mem _ hnd)
        · obtain ⟨e, he, hsrc, rfl⟩ := henqmem nd hnd
          exact Relation.ReflTransGen.tail
            (inv.queueReach cur (List.mem_cons_self _ _))
            ⟨e, he, hsrc, rfl⟩
      · intro nd hnd
        rcases List.mem_append.mp hnd with hnd | hnd
        · exact inv.queueWalk nd (List.mem_cons_of_mem _ hnd)
        · obtain ⟨e, he, hsrc, rfl⟩ := henqmem nd hnd
          exact (walkN_succ_back graph cur.depth s.id e.target.id).mpr
            ⟨cur.node.id, inv.queueWalk cur (List.mem_cons_self _ _),
              ⟨e, he, hsrc, rfl⟩⟩
      · intro w hw
        rcases List.mem_append.mp hw with hw | hw
        · exact inv.finSub w hw
        · rw [List.mem_singleton.mp hw]
          exact List.mem_map.mpr
            ⟨cur.node, inv.queueNodes cur (List.mem_cons_self _ _), rfl⟩
      · rw [List.nodup_append]
        exact ⟨inv.finNodup, List.nodup_singleton _,
          fun a ha hav => hvnotfin ((List.mem_singleton.mp hav) ▸ ha)⟩
      · intro w hw
        rcases List.mem_append.mp hw with hw | hw
        · exact inv.finReach w hw
        · rw [List.mem_singleton.mp hw]
          exact inv.queueReach cur (List.mem_cons_self _ _)
      · intro w hw e he htgt
        rcases List.mem_append.mp hw with hw | hw
        · exact List.mem_append_left _ (inv.finPred w hw e he htgt)
        · rw [List.mem_singleton.mp hw] at htgt
          exact List.mem_append_left _ (hpred e he htgt)
      · intro w hw
        rw [cntQ_append, cntQ_enqueued]
        rcases List.mem_append.mp hw with hw | hw
        · have h0 := inv.finCnt w hw
          have hwv : cur.node.id ≠ w := fun h => hvnotfin (h ▸ hw)
          rw [cntQ_cons, if_neg hwv] at h0
          have hz : graph.edges.countP (fun e =>
              e.source.id == cur.node.id && e.target.id == w) = 0 := by
            rw [List.countP_eq_zero]
            intro e he hb
            rw [Bool.and_eq_true] at hb
            have hsrc : e.source.id = cur.node.id := by simpa using hb.1
            have htgt : e.target.id = w := by simpa using hb.2
            exact hvnotfin (hsrc ▸ inv.finPred w hw e he htgt)
          omega
        · simp [List.mem_singleton.mp hw, hcv, hnoself]
      · rw [List.map_append, List.Sorted, List.pairwise_append]
        refine ⟨hsortrest, ?_, ?_⟩
        · rw [List.map_map]
          exact sorted_map_const _ _
        · intro a ha b hb
          rcases List.mem_map.mp ha with ⟨nd, hnd, rfl⟩
          rcases List.mem_map.mp hb with ⟨nd2, hnd2, rfl⟩
          rcases List.mem_map.mp hnd2 with ⟨e, -, rfl⟩
          exact hrestle nd hnd
      · intro a ha b hb
        rcases List.mem_append.mp ha with ha | ha <;>
          rcases List.mem_append.mp hb with hb | hb
        · exact inv.nearQ a (List.mem_cons_of_mem _ ha)
            b (List.mem_cons_of_mem _ hb)
        · rcases List.mem_map.mp hb with ⟨e, -, rfl⟩
          have := hrestge a ha
          dsimp only
          omega
        · rcases List.mem_map.mp ha with ⟨e, -, rfl⟩
          have := hrestle b hb
          dsimp only
          omega
        · rcases List.mem_map.mp ha with ⟨e, -, rfl⟩
          rcases List.mem_map.mp hb with ⟨e2, -, rfl⟩
          dsimp only
          omega
      · intro w dw hget nd hnd
        by_cases hw : w = cur.node.id
        · subst hw
          rw [JsMap.get_set_self] at hget
          have hdw : dw = cur.depth := (Option.some_inj.mp hget).symm
          subst hdw
          rcases List.mem_append.mp hnd with hnd | hnd
          · exact hrestge nd hnd
          · rcases List.mem_map.mp hnd with ⟨e, -, rfl⟩
            dsimp only
            omega
        · rw [JsMap.get_set_other _ _ _ _ (fun h => hw h.symm)] at hget
          rcases List.mem_append.mp hnd with hnd | hnd
          · exact inv.depthLe w dw hget nd (List.mem_cons_of_mem _ hnd)
          · rcases List.mem_map.mp hnd with ⟨e, -, rfl⟩
            have := hdmle w dw hget
            dsimp only
            omega
      · intro w dw hget
        by_cases hw : w = cur.node.id
        · subst hw
          rw [JsMap.get_set_self] at hget
          rw [← Option.some_inj.mp hget]
          exact inv.queueWalk cur (List.mem_cons_self _ _)
        · rw [JsMap.get_set_other _ _ _ _ (fun h => hw h.symm)] at hget
          exact inv.depthWalk w dw hget
      · intro w hw
        rcases List.mem_append.mp hw with hw | hw
        · have hwv : w ≠ cur.node.id := fun h => hvnotfin (h ▸ hw)
          rw [JsMap.get_set_other _ _ _ _ (fun h => hwv h.symm)]
          exact inv.finDepth w hw
        · rw [List.mem_singleton.mp hw, JsMap.get_set_self]
          rfl
      · intro e he hsrcfin
        rcases List.mem_append.mp hsrcfin with hsrcfin | hsrcv
        · have hsrcnev : e.source.id ≠ cur.node.id := fun h =>
            hvnotfin (h ▸ hsrcfin)
          have hgs : (st.depthMap.set cur.node.id cur.depth).get e.source.id =
              st.depthMap.get e.source.id :=
            JsMap.get_set_other _ _ _ _ (fun h => hsrcnev h.symm)
          rcases inv.edgeRec e he hsrcfin with
            ⟨nd, hndmem, hndid, ds, hds, hdsle⟩ | ⟨ds, dt, hds, hdt, hle2⟩
          · rcases List.mem_cons.mp hndmem with rfl | hndrest
            · refine Or.inr ⟨ds, nd.depth, (by rw [hgs]; exact hds), ?_, ?_⟩
              · rw [← hndid, JsMap.get_set_self]
              · exact hdsle
            · exact Or.inl ⟨nd, List.mem_append_left _ hndrest, hndid, ds,
                (by rw [hgs]; exact hds), hdsle⟩
          · by_cases htv : e.target.id = cur.node.id
            · refine Or.inr ⟨ds, cur.depth, (by rw [hgs]; exact hds), ?_, ?_⟩
              · rw [htv, JsMap.get_set_self]
              · have := hdmle _ _ hdt
                omega
            · refine Or.inr ⟨ds, dt, (by rw [hgs]; exact hds), ?_, hle2⟩
              rw [JsMap.get_set_other _ _ _ _ (fun h => htv h.symm)]
              exact hdt
        · have hsrcv : e.source.id = cur.node.id := List.mem_singleton.mp hsrcv
          refine Or.inl ⟨⟨e.target, cur.depth + 1⟩, ?_, rfl, cur.depth, ?_, ?_⟩
          · refine List.mem_append_right _ (List.mem_map.mpr ⟨e, ?_, rfl⟩)
            rw [getOutEdges_none, List.mem_filter]
            exact ⟨he, by simp [hsrcv]⟩
          · rw [hsrcv, JsMap.get_set_self]
          · dsimp only
            omega
      · exact JsMap.keys_nodup_set _ _ _ inv.dmNodup
      · intro w dw hget
        by_cases hw : w = cur.node.id
        · subst hw
          rw [JsMap.get_set_self] at hget
          rw [← Option.some_inj.mp hget]
          exact le_max_right _ _
        · rw [JsMap.get_set_other _ _ _ _ (fun h => hw h.symm)] at hget
          exact le_trans (inv.dmMax w dw hget) (le_max_left _ _)
      · intro w dw hget
        by_cases hw : w = cur.node.id
        · subst hw
          exact List.mem_map.mpr
            ⟨cur.node, inv.queueNodes cur (List.mem_cons_self _ _), rfl⟩
        · rw [JsMap.get_set_other _ _ _ _ (fun h => hw h.symm)] at hget
          exact inv.dmSub w dw hget
    · -- potential bookkeeping for a finishing pop
      have hlen : ((getOutEdges cur.node graph none).map
          (fun e => (⟨e.target, cur.depth + 1⟩ : NodeDepth))).length =
          graph.edges.countP (fun e => e.source.id == cur.node.id) := by
        rw [List.length_map, getOutEdges_none]
        exact (List.countP_eq_length_filter _ _).symm
      have hunfin := countP_unfin_append graph st.finished cur.node.id hvnotfin
      dsimp only
      simp only [List.length_append, List.length_cons, hlen]
      omega
  · -- decrement: more in-degree units pending
    have hrem2 : 2 ≤ rem := by
      have := inv.pos _ _ hrem
      omega
    have hstep : dagStep graph cur rest st = some
        (rest,
         { inDegree := st.inDegree.set cur.node.id (rem - 1),
           finished := st.finished,
           depthMap := st.depthMap.set cur.node.id cur.depth,
           maxDepth := max st.maxDepth cur.depth }) := by
      simp [dagStep, hrem, hrem1]
    refine ⟨_, _, hstep, ?_, ?_⟩
    · refine
        { keysSeeded := ?_, pos := ?_, finOne := ?_, count := ?_,
          queueNodes := ?_, queueKeys := ?_, queueReach := ?_,
          queueWalk := ?_, finSub := inv.finSub, finNodup := inv.finNodup,
          finReach := inv.finReach, finPred := inv.finPred, finCnt := ?_,
          sortedQ := hsortrest, nearQ := ?_, depthLe := ?_, depthWalk := ?_,
          finDepth := ?_, edgeRec := ?_, dmNodup := ?_, dmMax := ?_,
          dmSub := ?_ }
      · intro w
        rw [JsMap.get_isSome_set]
        constructor
        · rintro (h | rfl)
          · exact (inv.keysSeeded w).mp h
          · exact (inv.keysSeeded _).mp (by simp [hrem])
        · intro h
          exact Or.inl ((inv.keysSeeded w).mpr h)
      · intro w k hget
        by_cases hw : w = cur.node.id
        · subst hw
          rw [JsMap.get_set_self] at hget
          have := Option.some_inj.mp hget
          omega
        · rw [JsMap.get_set_other _ _ _ _ (fun h => hw h.symm)] at hget
          exact inv.pos w k hget
      · intro w hw
        have hwv : w ≠ cur.node.id := fun h => hvnotfin (h ▸ hw)
        rw [JsMap.get_set_other _ _ _ _ (fun h => hwv h.symm)]
        exact inv.finOne w hw
      · intro w
        dsimp only
        have hc := inv.count w
        by_cases hw : w = cur.node.id
        · subst hw
          rw [cntQ_cons, if_pos rfl, hrem] at hc
          rw [JsMap.get_set_self]
          simp only [Option.getD_some] at hc ⊢
          omega
        · rw [cntQ_cons, if_neg (fun h => hw h.symm)] at hc
          rw [JsMap.get_set_other _ _ _ _ (fun h => hw h.symm)]
          omega
      · exact fun nd hnd => inv.queueNodes nd (List.mem_cons_of_mem _ hnd)
      · intro nd hnd
        rw [JsMap.get_isSome_set]
        exact Or.inl (inv.queueKeys nd (List.mem_cons_of_mem _ hnd))
      · exact fun nd hnd => inv.queueReach nd (List.mem_cons_of_mem _ hnd)
      · exact fun nd hnd => inv.queueWalk nd (List.mem_cons_of_mem _ hnd)
      · intro w hw
        have h0 := inv.finCnt w hw
        have hwv : cur.node.id ≠ w := fun h => hvnotfin (h ▸ hw)
        rw [cntQ_cons, if_neg hwv] at h0
        omega
      · exact fun a ha b hb => inv.nearQ a (List.mem_cons_of_mem _ ha)
          b (List.mem_cons_of_mem _ hb)
      · intro w dw hget nd hnd
        by_cases hw : w = cur.node.id
        · subst hw
          rw [JsMap.get_set_self] at hget
          rw [← Option.some_inj.mp hget]
          exact hrestge nd hnd
        · rw [JsMap.get_set_other _ _ _ _ (fun h => hw h.symm)] at hget
          exact inv.depthLe w dw hget nd (List.mem_cons_of_mem _ hnd)
      · intro w dw hget
        by_cases hw : w = cur.node.id
        · subst hw
          rw [JsMap.get_set_self] at hget
          rw [← Option.some_inj.mp hget]
          exact inv.queueWalk cur (List.mem_cons_self _ _)
        · rw [JsMap.get_set_other _ _ _ _ (fun h => hw h.symm)] at hget
          exact inv.depthWalk w dw hget
      · intro w hw
        have hwv : w ≠ cur.node.id := fun h => hvnotfin (h ▸ hw)
        rw [JsMap.get_set_other _ _ _ _ (fun h => hwv h.symm)]
        exact inv.finDepth w hw
      · intro e he hsrcfin
        have hsrcnev : e.source.id ≠ cur.node.id := fun h =>
          hvnotfin (h ▸ hsrcfin)
        have hgs : (st.depthMap.set cur.node.id cur.depth).get e.source.id =
            st.depthMap.get e.source.id :=
          JsMap.get_set_other _ _ _ _ (fun h => hsrcnev h.symm)
        rcases inv.edgeRec e he hsrcfin with
          ⟨nd, hndmem, hndid, ds, hds, hdsle⟩ | ⟨ds, dt, hds, hdt, hle2⟩
        · rcases List.mem_cons.mp hndmem with rfl | hndrest
          · refine Or.inr ⟨ds, nd.depth, (by rw [hgs]; exact hds), ?_, ?_⟩
            · rw [← hndid, JsMap.get_set_self]
            · exact hdsle
          · exact Or.inl ⟨nd, hndrest, hndid, ds,
              (by rw [hgs]; exact hds), hdsle⟩
        · by_cases htv : e.target.id = cur.node.id
          · refine Or.inr ⟨ds, cur.depth, (by rw [hgs]; exact hds), ?_, ?_⟩
            · rw [htv, JsMap.get_set_self]
            · have := hdmle _ _ hdt
              omega
          · refine Or.inr ⟨ds, dt, (by rw [hgs]; exact hds), ?_, hle2⟩
            rw [JsMap.get_set_other _ _ _ _ (fun h => htv h.symm)]
            exact hdt
      · exact JsMap.keys_nodup_set _ _ _ inv.dmNodup
      · intro w dw hget
        by_cases hw : w = cur.node.id
        · subst hw
          rw [JsMap.get_set_self] at hget
          rw [← Option.some_inj.mp hget]
          exact le_max_right _ _
        · rw [JsMap.get_set_other _ _ _ _ (fun h => hw h.symm)] at hget
          exact le_trans (inv.dmMax w dw hget) (le_max_left _ _)
      · intro w dw hget
        by_cases hw : w = cur.node.id
        · subst hw
          exact List.mem_map.mpr
            ⟨cur.node, inv.queueNodes cur (List.mem_cons_self _ _), rfl⟩
        · rw [JsMap.get_set_other _ _ _ _ (fun h => hw h.symm)] at hget
          exact inv.dmSub w dw hget
    · dsimp only
      simp only [List.length_cons]
      omega

/-- If strictly fewer list entries satisfy `p && q` than `q`, some entry
satisfies `q` but not `p`. -/
lemma countP_lt_exists {α : Type} (l : List α) (p q : α → Bool)
    (h : l.countP (fun x => p x && q x) < l.countP q) :
    ∃ x ∈ l, q x = true ∧ p x = false := by
  by_contra hc
  push_neg at hc
  have hall : ∀ x ∈ l, q x = true → (p x && q x) = true := by
    intro x hx hq
    have hp := hc x hx hq
    cases hpx : p x with
    | false => exact absurd hpx hp
    | true => simp [hpx, hq]
  have := countP_le_countP l q (fun x => p x && q x) hall
  omega

/-- A duplicate-free sublist at least as long as its duplicate-free
superlist exhausts it. -/
lemma mem_of_subset_nodup_length {l1 l2 : List String}
    (hsub : ∀ x ∈ l1, x ∈ l2) (hnd1 : l1.Nodup) (hnd2 : l2.Nodup)
    (hlen : l2.length ≤ l1.length) : ∀ x ∈ l2, x ∈ l1 := by
  have hs : l1.toFinset ⊆ l2.toFinset := fun x hx =>
    List.mem_toFinset.mpr (hsub x (List.mem_toFinset.mp hx))
  have hc2 : l2.toFinset.card ≤ l1.toFinset.card := by
    rw [List.toFinset_card_of_nodup hnd1, List.toFinset_card_of_nodup hnd2]
    exact hlen
  have heq := Finset.eq_of_subset_of_card_le hs hc2
  intro x hx
  exact List.mem_toFinset.mp (by rw [heq]; exact List.mem_toFinset.mpr hx)

/-- With fuel exceeding the potential, the traversal drains the queue and
the invariant transfers to the final state. -/
lemma dagRun_inv (graph : Graph) (s : Node)
    (hclosed : ∀ e ∈ graph.edges, e.source ∈ graph.nodes ∧ e.target ∈ graph.nodes) :
    ∀ fuel (q : List NodeDepth) (st : DagState), DagInv graph s q st →
      q.length + graph.edges.countP
          (fun e => !decide (e.source.id ∈ st.finished)) < fuel →
      ∃ st2, dagRun graph fuel q st = some st2 ∧ DagInv graph s [] st2 := by
  intro fuel
  induction fuel with
  | zero => intro q st _ h; exact absurd h (Nat.not_lt_zero _)
  | succ n ih =>
      intro q st inv hpot
      cases q with
      | nil => exact ⟨st, rfl, inv⟩
      | cons cur rest =>
          obtain ⟨q2, st2, hstep, inv2, hcount⟩ :=
            dagStep_inv graph s hclosed cur rest st inv
          have hpot2 : q2.length + graph.edges.countP
              (fun e => !decide (e.source.id ∈ st2.finished)) < n := by
            omega
          obtain ⟨st3, hrun, inv3⟩ := ih q2 st2 inv2 hpot2
          refine ⟨st3, ?_, inv3⟩
          simp only [dagRun, hstep]
          exact hrun

/-- Running `dagLayout`'s traversal always drains the queue: the invariant
holds at the end, and the returned value is determined by the finished
count. -/
lemma dagLayout_final (graph : Graph) (s : Node) (tl : List Node)
    (hfilter : graph.nodes.filter (fun n => n.id == graph.start) = s :: tl)
    (hclosed : ∀ e ∈ graph.edges, e.source ∈ graph.nodes ∧ e.target ∈ graph.nodes) :
    ∃ st2, DagInv graph s [] st2 ∧
      dagLayout graph =
        (if st2.finished.length ≠ graph.nodes.length then none
         else some (invertDepthMap st2.depthMap st2.maxDepth)) := by
  have hsmem : s ∈ graph.nodes.filter (fun n => n.id == graph.start) := by
    rw [hfilter]; exact List.mem_cons_self _ _
  have hs : s ∈ graph.nodes := (List.mem_filter.mp hsmem).1
  have hinit := dagInv_init graph s hs
  have hpot : ([(⟨s, 0⟩ : NodeDepth)]).length + graph.edges.countP
      (fun e => !decide (e.source.id ∈
        ({ inDegree := initialInDegree s graph, finished := [],
           depthMap := [], maxDepth := 0 } : DagState).finished)) <
      graph.edges.length + 2 := by
    dsimp only
    have h1 : graph.edges.countP
        (fun e => !decide (e.source.id ∈ ([] : List String))) =
        graph.edges.length := by simp
    simp only [List.length_singleton]
    omega
  obtain ⟨st2, hrun, hinv2⟩ := dagRun_inv graph s hclosed _ _ _ hinit hpot
  refine ⟨st2, hinv2, ?_⟩
  simp only [dagLayout, hfilter, hrun]

/-- Consequences of the drained invariant when every node finished: total
reachability, no reachable cycle, and the depth map holds exactly the
longest-walk lengths from the start. -/
lemma dagFinal_success (graph : Graph) (s : Node)
    (hclosed : ∀ e ∈ graph.edges, e.source ∈ graph.nodes ∧ e.target ∈ graph.nodes)
    (hnd : (graph.nodes.map (·.id)).Nodup) (hsid : s.id = graph.start)
    (st2 : DagState) (inv : DagInv graph s [] st2)
    (hlen : st2.finished.length = graph.nodes.length) :
    (∀ n ∈ graph.nodes, reachableFromStart graph n.id) ∧
    ¬ cycleReachableFromStart graph ∧
    (∀ v i, st2.depthMap.get v = some i ↔
      ((∃ n ∈ graph.nodes, n.id = v) ∧ walkN graph i graph.start v ∧
        ∀ m, walkN graph m graph.start v → m ≤ i)) := by
  have hlen2 : (graph.nodes.map (·.id)).length ≤ st2.finished.length := by
    rw [List.length_map]; omega
  have hallfin : ∀ v ∈ graph.nodes.map (·.id), v ∈ st2.finished :=
    mem_of_subset_nodup_length inv.finSub inv.finNodup hnd hlen2
  have hfinid : ∀ e ∈ graph.edges, e.source.id ∈ st2.finished := fun e he =>
    hallfin _ (List.mem_map.mpr ⟨e.source, (hclosed e he).1, rfl⟩)
  have hrec : ∀ e ∈ graph.edges, ∃ ds dt,
      st2.depthMap.get e.source.id = some ds ∧
      st2.depthMap.get e.target.id = some dt ∧ ds + 1 ≤ dt := by
    intro e he
    rcases inv.edgeRec e he (hfinid e he) with ⟨nd, hnd2, -⟩ | h
    · exact absurd hnd2 (List.not_mem_nil nd)
    · exact h
  have hwalkle : ∀ m v, walkN graph m graph.start v →
      ∀ d, st2.depthMap.get v = some d → m ≤ d := by
    intro m
    induction m with
    | zero => intro v _ d _; omega
    | succ k ih =>
        intro v hw d hd
        obtain ⟨c, hwc, hcv⟩ := (walkN_succ_back graph k graph.start v).mp hw
        obtain ⟨e, he, hesrc, hetgt⟩ := hcv
        obtain ⟨ds, dt, hds, hdt, hle⟩ := hrec e he
        rw [hesrc] at hds
        rw [hetgt] at hdt
        have hkds : k ≤ ds := ih c hwc ds hds
        have hdtd : dt = d := Option.some_inj.mp (hdt.symm.trans hd)
        omega
  have hreach : ∀ n ∈ graph.nodes, reachableFromStart graph n.id := by
    intro n hn
    have h2 := inv.finReach n.id (hallfin _ (List.mem_map.mpr ⟨n, hn, rfl⟩))
    rw [hsid] at h2
    exact h2
  have hmono : ∀ a b, Relation.TransGen (edgeStep graph) a b →
      ∀ da db, st2.depthMap.get a = some da →
        st2.depthMap.get b = some db → da < db := by
    intro a b htg
    induction htg with
    | single h =>
        intro da db hda hdb
        obtain ⟨e, he, hesrc, hetgt⟩ := h
        obtain ⟨ds, dt, hds, hdt, hle⟩ := hrec e he
        rw [hesrc] at hds
        rw [hetgt] at hdt
        have h1 := Option.some_inj.mp (hds.symm.trans hda)
        have h2 := Option.some_inj.mp (hdt.symm.trans hdb)
        omega
    | tail htg2 h ih =>
        intro da db hda hdb
        obtain ⟨e, he, hesrc, hetgt⟩ := h
        obtain ⟨ds, dt, hds, hdt, hle⟩ := hrec e he
        rw [hesrc] at hds
        rw [hetgt] at hdt
        have h2 := Option.some_inj.mp (hdt.symm.trans hdb)
        have h3 := ih da ds hda hds
        omega
  have hnocycle : ¬ cycleReachableFromStart graph := by
    rintro ⟨v, -, htg⟩
    have hstep1 : ∃ e ∈ graph.edges, e.target.id = v := by
      rcases (Relation.transGen_iff (edgeStep graph) v v).mp htg with
        h | ⟨c, -, hc⟩
      · obtain ⟨e, he, -, hetgt⟩ := h
        exact ⟨e, he, hetgt⟩
      · obtain ⟨e, he, -, hetgt⟩ := hc
        exact ⟨e, he, hetgt⟩
    obtain ⟨e, he, hetgt⟩ := hstep1
    have hvfin : v ∈ st2.finished :=
      hallfin _ (List.mem_map.mpr ⟨e.target, (hclosed e he).2, hetgt⟩)
    obtain ⟨dv, hdv⟩ := Option.isSome_iff_exists.mp (inv.finDepth v hvfin)
    exact absurd (hmono v v htg dv dv hdv hdv) (lt_irrefl dv)
  refine ⟨hreach, hnocycle, ?_⟩
  intro v i
  constructor
  · intro hget
    refine ⟨?_, ?_, ?_⟩
    · obtain ⟨n, hn, hid⟩ := List.mem_map.mp (inv.dmSub v i hget)
      exact ⟨n, hn, hid⟩
    · have hw := inv.depthWalk v i hget
      rw [hsid] at hw
      exact hw
    · intro m hm
      exact hwalkle m v hm i hget
  · rintro ⟨⟨n, hn, hid⟩, hwalk, hmax⟩
    have hvfin : v ∈ st2.finished := hallfin _ (List.mem_map.mpr ⟨n, hn, hid⟩)
    obtain ⟨d, hd⟩ := Option.isSome_iff_exists.mp (inv.finDepth v hvfin)
    have hw := inv.depthWalk v d hd
    rw [hsid] at hw
    have h1 : d ≤ i := hmax d hw
    have h2 : i ≤ d := hwalkle i v hwalk d hd
    have hdi : d = i := by omega
    rw [← hdi]
    exact hd

/-- With the queue drained but some node unfinished, full reachability
forces a cycle reachable from the start: every unfinished node keeps an
in-edge from an unfinished node, and following these backwards long
enough repeats a node. -/
lemma dagFinal_incomplete (graph : Graph) (s : Node)
    (hclosed : ∀ e ∈ graph.edges, e.source ∈ graph.nodes ∧ e.target ∈ graph.nodes)
    (hnd : (graph.nodes.map (·.id)).Nodup) (hsid : s.id = graph.start)
    (st2 : DagState) (inv : DagInv graph s [] st2)
    (hne : st2.finished.length ≠ graph.nodes.length)
    (hall : ∀ n ∈ graph.nodes, reachableFromStart graph n.id) :
    cycleReachableFromStart graph := by
  classical
  have hex : ∃ v ∈ graph.nodes.map (·.id), v ∉ st2.finished := by
    by_contra hcne
    push_neg at hcne
    have hsubF : (graph.nodes.map (·.id)).toFinset ⊆ st2.finished.toFinset :=
      fun x hx => List.mem_toFinset.mpr (hcne x (List.mem_toFinset.mp hx))
    have hcard := Finset.card_le_card hsubF
    rw [List.toFinset_card_of_nodup inv.finNodup,
      List.toFinset_card_of_nodup hnd, List.length_map] at hcard
    have hsubF2 : st2.finished.toFinset ⊆ (graph.nodes.map (·.id)).toFinset :=
      fun x hx => List.mem_toFinset.mpr (inv.finSub x (List.mem_toFinset.mp hx))
    have hcard2 := Finset.card_le_card hsubF2
    rw [List.toFinset_card_of_nodup inv.finNodup,
      List.toFinset_card_of_nodup hnd, List.length_map] at hcard2
    omega
  have hstepex : ∀ v ∈ graph.nodes.map (·.id), v ∉ st2.finished →
      ∃ u, (u ∈ graph.nodes.map (·.id) ∧ u ∉ st2.finished) ∧
        edgeStep graph u v := by
    intro v hvm hvnf
    obtain ⟨n, hn, hid⟩ := List.mem_map.mp hvm
    have hreachv : reachableFromStart graph v := by
      rw [← hid]; exact hall n hn
    have hseed : (st2.inDegree.get v).isSome := by
      rw [inv.keysSeeded]
      rcases Relation.ReflTransGen.cases_tail hreachv with heq | ⟨c, -, hc⟩
      · left
        rw [heq, ← hsid]
      · right
        obtain ⟨e, he, -, hetgt⟩ := hc
        have : 0 < graph.edges.countP (fun e2 => e2.target.id == v) :=
          List.countP_pos_iff.mpr ⟨e, he, by simp [hetgt]⟩
        omega
    obtain ⟨k, hk⟩ := Option.isSome_iff_exists.mp hseed
    have hkpos := inv.pos v k hk
    have hcnt := inv.count v
    rw [hk, if_neg hvnf] at hcnt
    simp only [Option.getD_some] at hcnt
    unfold indeg0 enqCnt at hcnt
    have h0 : cntQ v ([] : List NodeDepth) = 0 := rfl
    have hclt : graph.edges.countP
        (fun e => decide (e.source.id ∈ st2.finished) && e.target.id == v) <
        graph.edges.countP (fun e => e.target.id == v) := by
      omega
    obtain ⟨e, he, hq, hp⟩ := countP_lt_exists graph.edges _ _ hclt
    refine ⟨e.source.id,
      ⟨List.mem_map.mpr ⟨e.source, (hclosed e he).1, rfl⟩,
        fun hmem => of_decide_eq_false hp hmem⟩,
      ⟨e, he, rfl, by simpa using hq⟩⟩
  obtain ⟨v0, hv0m, hv0nf⟩ := hex
  let step : {v : String // v ∈ graph.nodes.map (·.id) ∧ v ∉ st2.finished} →
      {v : String // v ∈ graph.nodes.map (·.id) ∧ v ∉ st2.finished} :=
    fun p => ⟨Classical.choose (hstepex p.1 p.2.1 p.2.2),
      (Classical.choose_spec (hstepex p.1 p.2.1 p.2.2)).1⟩
  let C : Nat → {v : String // v ∈ graph.nodes.map (·.id) ∧ v ∉ st2.finished} :=
    fun n => step^[n] ⟨v0, hv0m, hv0nf⟩
  have hCsucc : ∀ n, C (n + 1) = step (C n) := fun n =>
    Function.iterate_succ_apply' step n ⟨v0, hv0m, hv0nf⟩
  have hCstep : ∀ n, edgeStep graph (C (n + 1)).1 (C n).1 := by
    intro n
    rw [hCsucc n]
    exact (Classical.choose_spec (hstepex (C n).1 (C n).2.1 (C n).2.2)).2
  have hchain : ∀ j i, i < j →
      Relation.TransGen (edgeStep graph) (C j).1 (C i).1 := by
    intro j
    induction j with
    | zero => intro i hi; exact absurd hi (Nat.not_lt_zero _)
    | succ k ih =>
        intro i hi
        rcases Nat.lt_succ_iff_lt_or_eq.mp hi with hik | hik
        · exact Relation.TransGen.head (hCstep k) (ih i hik)
        · rw [hik]
          exact Relation.TransGen.single (hCstep k)
  have hmaps : ∀ n ∈ Finset.range ((graph.nodes.map (·.id)).length + 1),
      (C n).1 ∈ (graph.nodes.map (·.id)).toFinset := fun n _ =>
    List.mem_toFinset.mpr (C n).2.1
  have hcard : ((graph.nodes.map (·.id)).toFinset).card <
      (Finset.range ((graph.nodes.map (·.id)).length + 1)).card := by
    rw [Finset.card_range, List.toFinset_card_of_nodup hnd]
    omega
  obtain ⟨i, hi, j, hj, hne2, heq⟩ :=
    Finset.exists_ne_map_eq_of_card_lt_of_maps_to hcard hmaps
  have hreachC : ∀ n, reachableFromStart graph (C n).1 := by
    intro n
    obtain ⟨nn, hnn, hid⟩ := List.mem_map.mp (C n).2.1
    rw [← hid]
    exact hall nn hnn
  rcases Ne.lt_or_lt hne2 with hij | hij
  · refine ⟨(C j).1, hreachC j, ?_⟩
    have h2 := hchain j i hij
    rwa [heq] at h2
  · refine ⟨(C i).1, hreachC i, ?_⟩
    have h2 := hchain i j hij
    rwa [← heq] at h2

/-- Membership in the inverted depth map: the level list at index `i`
holds exactly the keys mapped to depth `i` (and is empty past
`maxDepth`). -/
lemma invertDepthMap_mem (dm : JsMap Nat) (maxD : Nat)
    (hnd : (dm.map (·.1)).Nodup) (i : Nat) (v : String) :
    v ∈ (invertDepthMap dm maxD).getD i [] ↔
      (dm.get v = some i ∧ i ≤ maxD) := by
  by_cases hi : i ≤ maxD
  · have hlt : i < maxD + 1 := by omega
    have hElem : (invertDepthMap dm maxD).getD i [] =
        (dm.filter fun item => item.2 = i).map (·.1) := by
      unfold invertDepthMap
      rw [List.getD_eq_getElem?_getD, List.getElem?_map,
        List.getElem?_range hlt]
      rfl
    rw [hElem]
    constructor
    · intro hv
      obtain ⟨p, hp, hp1⟩ := List.mem_map.mp hv
      have hpf := List.mem_filter.mp hp
      have hp2 : p.2 = i := by simpa using hpf.2
      have hpm : (v, i) ∈ dm := by
        have hpvi : p = (v, i) := Prod.ext hp1 hp2
        rw [← hpvi]
        exact hpf.1
      exact ⟨(JsMap.get_eq_some_iff_mem dm hnd v i).mpr hpm, hi⟩
    · rintro ⟨hget, -⟩
      have hpm := (JsMap.get_eq_some_iff_mem dm hnd v i).mp hget
      exact List.mem_map.mpr ⟨(v, i), List.mem_filter.mpr ⟨hpm, by simp⟩, rfl⟩
  · have hlen : (invertDepthMap dm maxD).length = maxD + 1 := by
      unfold invertDepthMap
      rw [List.length_map, List.length_range]
    have hnone : (invertDepthMap dm maxD).getD i [] = [] := by
      rw [List.getD_eq_getElem?_getD, List.getElem?_eq_none (by omega)]
      rfl
    rw [hnone]
    simp only [List.not_mem_nil, false_iff]
    rintro ⟨-, hle⟩
    exact hi hle

/-- An unconditioned edge x→y. -/
def fxDagEdge (x y : String) : Edge := ⟨fxNode x, fxNode y, [], none, none⟩

/-- The spec's diamond DAG: s→a, s→b, a→c, b→c, start s. -/
def fxDagGraph : Graph :=
  ⟨"g", none, "gn", "s", [fxNode "s", fxNode "a", fxNode "b", fxNode "c"],
   [fxDagEdge "s" "a", fxDagEdge "s" "b", fxDagEdge "a" "c", fxDagEdge "b" "c"]⟩

/-- An acyclic graph with an isolated (unreachable) second node. -/
def fxIsoGraph : Graph := ⟨"g", none, "gn", "s", [fxNode "s", fxNode "x"], []⟩

/-- C8 counterexample: on an acyclic two-node graph whose second node is
unreachable from the start, `dagLayout` returns the sentinel `none` even
though no cycle is reachable from the start, contradicting the claim that
the sentinel is returned exactly for a reachable cycle. -/
theorem c8_counterexample :
    dagLayout fxIsoGraph = none ∧ ¬ cycleReachableFromStart fxIsoGraph := by
  refine ⟨by decide, ?_⟩
  rintro ⟨v, -, htg⟩
  rcases (Relation.transGen_iff (edgeStep fxIsoGraph) v v).mp htg with
    h | ⟨c, -, hc⟩
  · obtain ⟨e, he, -, -⟩ := h
    exact absurd he (List.not_mem_nil e)
  · obtain ⟨e, he, -, -⟩ := hc
    exact absurd he (List.not_mem_nil e)

/-- C8 (amended): for a graph whose start id names a node, whose edges
join nodes of the graph, and whose node ids are distinct, `dagLayout`
returns `none` exactly when a cycle is reachable from the start OR some
node is unreachable from the start; when it returns levels, the list at
index `i` holds exactly the node ids whose longest walk from the start
has length `i`. -/
theorem c8_dag_layout_characterization (graph : Graph)
    (hstart : ∃ n ∈ graph.nodes, n.id = graph.start)
    (hclosed : ∀ e ∈ graph.edges, e.source ∈ graph.nodes ∧ e.target ∈ graph.nodes)
    (hnd : (graph.nodes.map (·.id)).Nodup) :
    (dagLayout graph = none ↔
      (cycleReachableFromStart graph ∨
        ∃ n ∈ graph.nodes, ¬ reachableFromStart graph n.id)) ∧
    (∀ levels, dagLayout graph = some levels →
      ∀ i v, v ∈ levels.getD i [] ↔
        ((∃ n ∈ graph.nodes, n.id = v) ∧ walkN graph i graph.start v ∧
          ∀ m, walkN graph m graph.start v → m ≤ i)) := by
  obtain ⟨n0, hn0, hid0⟩ := hstart
  have hmemf : n0 ∈ graph.nodes.filter (fun n => n.id == graph.start) :=
    List.mem_filter.mpr ⟨hn0, by simp [hid0]⟩
  obtain ⟨s, tl, hfilter⟩ : ∃ s tl,
      graph.nodes.filter (fun n => n.id == graph.start) = s :: tl := by
    cases hf : graph.nodes.filter (fun n => n.id == graph.start) with
    | nil =>
        rw [hf] at hmemf
        exact absurd hmemf (List.not_mem_nil n0)
    | cons a b => exact ⟨a, b, rfl⟩
  have hsmem : s ∈ graph.nodes.filter (fun n => n.id == graph.start) := by
    rw [hfilter]
    exact List.mem_cons_self _ _
  have hsf := List.mem_filter.mp hsmem
  have hsid : s.id = graph.start := by simpa using hsf.2
  obtain ⟨st2, inv, heq⟩ := dagLayout_final graph s tl hfilter hclosed
  by_cases hsucc : st2.finished.length = graph.nodes.length
  · have hcond : ¬(st2.finished.length ≠ graph.nodes.length) :=
      fun h => h hsucc
    rw [if_neg hcond] at heq
    obtain ⟨hreach, hnocyc, hchar⟩ :=
      dagFinal_success graph s hclosed hnd hsid st2 inv hsucc
    constructor
    · constructor
      · intro h
        rw [heq] at h
        exact Option.noConfusion h
      · rintro (hcy | ⟨n, hn, hnr⟩)
        · exact absurd hcy hnocyc
        · exact absurd (hreach n hn) hnr
    · intro levels hlv i v
      rw [heq] at hlv
      have hlev : levels = invertDepthMap st2.depthMap st2.maxDepth :=
        (Option.some_inj.mp hlv).symm
      subst hlev
      rw [invertDepthMap_mem st2.depthMap st2.maxDepth inv.dmNodup i v]
      constructor
      · rintro ⟨hget, -⟩
        exact (hchar v i).mp hget
      · intro hr
        have hget := (hchar v i).mpr hr
        exact ⟨hget, inv.dmMax v i hget⟩
  · rw [if_pos hsucc] at heq
    constructor
    · constructor
      · intro _
        by_cases hall : ∀ n ∈ graph.nodes, reachableFromStart graph n.id
        · exact Or.inl
            (dagFinal_incomplete graph s hclosed hnd hsid st2 inv hsucc hall)
        · push_neg at hall
          obtain ⟨n, hn, hnr⟩ := hall
          exact Or.inr ⟨n, hn, hnr⟩
      · intro _
        exact heq
    · intro levels hlv
      rw [heq] at hlv
      exact Option.noConfusion hlv

/-- C8 witness: the characterization applies to the spec's diamond
example, whose hypotheses hold by computation. -/
theorem c8_dag_layout_characterization_witness :
    dagLayout fxDagGraph = none ↔
      (cycleReachableFromStart fxDagGraph ∨
        ∃ n ∈ fxDagGraph.nodes, ¬ reachableFromStart fxDagGraph n.id) :=
  (c8_dag_layout_characterization fxDagGraph (by decide) (by decide)
    (by decide)).1

end Usnea
